import Mathlib

/-!
Verification of the SiteGrabber crawler against its specification.

The Python sources (url_resolver.py, file_saver.py, html_filter.py,
crawler.py) are shallowly embedded below.  Strings are modelled as lists of
characters; the pieces of Python's urllib.parse that the code calls
(urlparse, urlunparse, urljoin, unquote) are re-implemented faithfully for
the URL shapes the crawler handles (scheme://netloc/path?query#fragment,
without the rarely used ;parameters field).  Filesystem, network and DOM
parsing are external collaborators and appear as explicit oracles.
-/

/-- Strings are modelled as lists of characters. -/
abbrev Chars := List Char

/-- Embed a Lean string literal into the character-list model. -/
def chars (s : String) : Chars := s.data

/-- Python str.lower, restricted to the ASCII range used by the crawler. -/
def lowerStr (s : Chars) : Chars := s.map Char.toLower

/-- Python str.split(sep) for a one-character separator: splits on every
occurrence and keeps empty pieces, with [""] for the empty string. -/
def pySplit (sep : Char) : Chars → List Chars
  | [] => [[]]
  | c :: rest =>
    match pySplit sep rest with
    | [] => [[]]
    | s :: ss => if c = sep then [] :: s :: ss else (c :: s) :: ss

/-- Python sep.join(pieces) for a one-character separator. -/
def pyJoin (sep : Char) : List Chars → Chars
  | [] => []
  | [s] => s
  | s :: rest => s ++ sep :: pyJoin sep rest

/-- Drop characters satisfying p from the right end (helper for strip). -/
def dropRightWhile (p : Char → Bool) (s : Chars) : Chars :=
  (s.reverse.dropWhile p).reverse

/-- Python str.strip(set): remove characters of the set from both ends. -/
def pyStrip (p : Char → Bool) (s : Chars) : Chars :=
  dropRightWhile p (s.dropWhile p)

/-- Python str.rstrip(set): remove characters of the set from the right. -/
def pyRstrip (p : Char → Bool) (s : Chars) : Chars :=
  dropRightWhile p s

/-- Python str.rstrip("/"). -/
def rstripSlash (s : Chars) : Chars := pyRstrip (fun c => c = '/') s

/-- Split a string at the first occurrence of sep: some (before, after)
when sep occurs, none otherwise. -/
def breakAt (sep : Char) : Chars → Option (Chars × Chars)
  | [] => none
  | c :: rest =>
    if c = sep then some ([], rest)
    else (breakAt sep rest).map (fun p => (c :: p.1, p.2))

/-- Last i elements of a list (Python l[-i:] for 0 < i ≤ len(l)). -/
def takeLast (i : Nat) (l : List Chars) : List Chars := l.drop (l.length - i)

/-- Characters allowed in a URL scheme by urllib (letters, digits, +, -, .). -/
def validSchemeChar (c : Char) : Bool := c.isAlphanum || c = '+' || c = '-' || c = '.'

/-- Result of urllib.parse.urlparse, without the ;parameters field. -/
structure ParsedUrl where
  scheme : Chars
  netloc : Chars
  path : Chars
  query : Chars
  fragment : Chars
deriving DecidableEq, Repr

/-- Model of urllib.parse.urlparse with a default scheme (second argument of
the Python function): extract the scheme when a valid one precedes the first
colon, then the //netloc part, then split off the fragment at the first #
and the query at the first ?. -/
def urlparseD (s : Chars) (defaultScheme : Chars) : ParsedUrl :=
  let schemeSplit : Chars × Chars :=
    match breakAt ':' s with
    | some (pre, post) =>
      if !pre.isEmpty && pre.head?.any Char.isAlpha && pre.all validSchemeChar
      then (lowerStr pre, post) else ([], s)
    | none => ([], s)
  let scheme := if schemeSplit.1 = [] then defaultScheme else schemeSplit.1
  let rest := schemeSplit.2
  let netlocSplit : Chars × Chars :=
    if (chars ("//")).isPrefixOf rest then
      let r := rest.drop 2
      (r.takeWhile (fun c => ¬ (c = '/' ∨ c = '?' ∨ c = '#')),
       r.dropWhile (fun c => ¬ (c = '/' ∨ c = '?' ∨ c = '#')))
    else ([], rest)
  let netloc := netlocSplit.1
  let fragSplit : Chars × Chars :=
    match breakAt '#' netlocSplit.2 with
    | some (a, b) => (a, b)
    | none => (netlocSplit.2, [])
  let querySplit : Chars × Chars :=
    match breakAt '?' fragSplit.1 with
    | some (a, b) => (a, b)
    | none => (fragSplit.1, [])
  ⟨scheme, netloc, querySplit.1, querySplit.2, fragSplit.2⟩

/-- Model of urllib.parse.urlparse (empty default scheme). -/
def urlparse (s : Chars) : ParsedUrl := urlparseD s []

/-- Model of urllib.parse.urlunparse for components without ;parameters:
prepend //netloc when a netloc is present, prepend the scheme, append the
query after ? and the fragment after #. -/
def urlunparse (scheme netloc path query fragment : Chars) : Chars :=
  let url := path
  let url :=
    if netloc ≠ [] ∨ (chars ("//")).isPrefixOf url then
      chars ("//") ++ netloc ++
        (if url ≠ [] ∧ ¬ ((chars ("/")).isPrefixOf url) then '/' :: url else url)
    else url
  let url := if scheme ≠ [] then scheme ++ ':' :: url else url
  let url := if query ≠ [] then url ++ '?' :: query else url
  if fragment ≠ [] then url ++ '#' :: fragment else fragment ++ url

/-- Schemes for which urljoin performs relative resolution; the crawler only
meets the empty scheme, http and https. -/
def usesRelative (sch : Chars) : Bool :=
  sch = [] || sch = chars ("http") || sch = chars ("https")

/-- Middle slice cleanup of urljoin: segments[1:-1] = filter(None, ...),
applied to the tail of the segment list (keeps the last element). -/
def midKeepLast : List Chars → List Chars
  | [] => []
  | [y] => [y]
  | y :: ys => if y = [] then midKeepLast ys else y :: midKeepLast ys

/-- Dot-segment resolution loop of urljoin: '..' pops the accumulator,
'.' is skipped, anything else is appended. -/
def dotResolve (segs : List Chars) : List Chars :=
  segs.foldl
    (fun acc seg =>
      if seg = chars ("..") then acc.dropLast
      else if seg = chars (".") then acc
      else acc ++ [seg]) []

/-- Model of urllib.parse.urljoin following the CPython algorithm: parse the
reference with the base scheme as default, keep absolute references, merge a
relative path onto the base path directory and resolve dot segments. -/
def urljoin (base url : Chars) : Chars :=
  if base = [] then url
  else if url = [] then base
  else
    let b := urlparse base
    let u := urlparseD url b.scheme
    if u.scheme ≠ b.scheme ∨ ¬ usesRelative u.scheme then url
    else if u.netloc ≠ [] then urlunparse u.scheme u.netloc u.path u.query u.fragment
    else
      let netloc := b.netloc
      if u.path = [] then
        urlunparse u.scheme netloc b.path
          (if u.query ≠ [] then u.query else b.query) u.fragment
      else
        let baseParts := pySplit '/' b.path
        let baseParts := if baseParts.getLast? ≠ some [] then baseParts.dropLast else baseParts
        let segments :=
          if (chars ("/")).isPrefixOf u.path then pySplit '/' u.path
          else
            match baseParts ++ pySplit '/' u.path with
            | [] => []
            | x :: rest => x :: midKeepLast rest
        let resolved := dotResolve segments
        let resolved :=
          if segments.getLast? = some (chars (".")) ∨ segments.getLast? = some (chars (".."))
          then resolved ++ [[]] else resolved
        let p := pyJoin '/' resolved
        urlunparse u.scheme netloc (if p = [] then chars ("/") else p) u.query u.fragment

/-- Hexadecimal digit test for percent-decoding. -/
def isHexDigit (c : Char) : Bool :=
  (('0' ≤ c ∧ c ≤ '9') ∨ ('a' ≤ c ∧ c ≤ 'f') ∨ ('A' ≤ c ∧ c ≤ 'F'))

/-- Value of a hexadecimal digit. -/
def hexVal (c : Char) : Nat :=
  if '0' ≤ c ∧ c ≤ '9' then c.toNat - ('0').toNat
  else if 'a' ≤ c ∧ c ≤ 'f' then c.toNat - ('a').toNat + 10
  else c.toNat - ('A').toNat + 10

/-- Model of urllib.parse.unquote at the byte/ASCII level: a % followed by
two hexadecimal digits decodes to the corresponding character; an invalid
escape is kept literally, as in Python. -/
def unquote : Chars → Chars
  | [] => []
  | '%' :: a :: b :: rest =>
    if isHexDigit a ∧ isHexDigit b
    then Char.ofNat (16 * hexVal a + hexVal b) :: unquote rest
    else '%' :: unquote (a :: b :: rest)
  | c :: rest => c :: unquote rest

/-- Run-collapsing scan: the boolean says whether the previous kept
character was a slash, in which case further slashes are dropped. -/
def collapseAux : Bool → Chars → Chars
  | _, [] => []
  | prevSlash, c :: rest =>
    if c = '/' then
      if prevSlash then collapseAux true rest
      else '/' :: collapseAux true rest
    else c :: collapseAux false rest

/-- Collapse every run of slashes in a path to a single slash: the fixpoint
of the while-replace("//", "/") loop in _normalize_url. -/
def collapseSlashes (s : Chars) : Chars := collapseAux false s

/-- Embedding of _normalize_url (url_resolver.py): strip the fragment and
collapse duplicate slashes in the path, keeping the query verbatim. -/
def normalize_url (url : Chars) : Chars :=
  let p := urlparse url
  urlunparse p.scheme p.netloc (collapseSlashes p.path) p.query []

/-- Loop condition of _fix_overlap at index i: the last i segments of the
base path, joined, equal the first i segments of the href path, joined, and
are non-empty. -/
def overlapPred (base_segments href_segments : List Chars) (i : Nat) : Bool :=
  let base_tail := pyJoin '/' (takeLast i base_segments)
  let href_head := pyJoin '/' (href_segments.take i)
  (base_tail == href_head) && !base_tail.isEmpty

/-- Embedding of _fix_overlap (url_resolver.py): for a non-rooted relative
href, scan i = 1, 2, ... and splice at the first i whose base-path tail of i
segments equals the first i segments of the href path. -/
def fix_overlap (base_url href resolved : Chars) : Chars :=
  if (chars ("/")).isPrefixOf href || (chars ("http://")).isPrefixOf href
     || (chars ("https://")).isPrefixOf href || (chars ("//")).isPrefixOf href then
    resolved
  else
    let base_parsed := urlparse base_url
    let resolved_parsed := urlparse resolved
    let base_path := rstripSlash base_parsed.path
    let href_path := (urlparse href).path
    let base_segments := pySplit '/' base_path
    let href_segments := pySplit '/' href_path
    match ((List.range base_segments.length).drop 1).find?
        (overlapPred base_segments href_segments) with
    | some i =>
      let correct_path := base_path ++ '/' :: pyJoin '/' (href_segments.drop i)
      let correct_path := if rstripSlash correct_path = [] then chars ("/")
                          else rstripSlash correct_path
      let href_query := (urlparse href).query
      urlunparse base_parsed.scheme base_parsed.netloc correct_path
        (if href_query ≠ [] then href_query else resolved_parsed.query) []
    | none => resolved

/-- Python whitespace test for str.strip(). -/
def isPyWhitespace (c : Char) : Bool :=
  c = ' ' || c = '\t' || c = '\n' || c = '\r' || c = '\x0b' || c = '\x0c'

/-- Embedding of resolve_url (url_resolver.py): reject empty and
non-navigable references, normalize absolute hrefs, otherwise urljoin then
overlap correction then normalization. -/
def resolve_url (base_url href : Chars) : Chars :=
  if href.isEmpty || (chars ("#")).isPrefixOf href || (chars ("javascript:")).isPrefixOf href
     || (chars ("mailto:")).isPrefixOf href || (chars ("tel:")).isPrefixOf href then []
  else
    let href := pyStrip isPyWhitespace href
    if (chars ("http://")).isPrefixOf href || (chars ("https://")).isPrefixOf href then
      normalize_url href
    else
      let resolved := urljoin base_url href
      let resolved := fix_overlap base_url href resolved
      normalize_url resolved

/-- Embedding of is_in_scope (url_resolver.py): same netloc, candidate
scheme restricted to http/https, and the base path (with trailing slashes
stripped) must be a prefix of the candidate path ending at a segment
boundary. -/
def is_in_scope (url base_url : Chars) : Bool :=
  if url.isEmpty then false
  else
    let u := urlparse url
    let b := urlparse base_url
    if u.netloc ≠ b.netloc then false
    else if ¬ (u.scheme = chars ("http") ∨ u.scheme = chars ("https")) then false
    else
      let base_path := rstripSlash b.path
      let url_path := u.path
      if !(base_path.isPrefixOf url_path) then false
      else
        let remaining := url_path.drop base_path.length
        if !remaining.isEmpty && !((chars ("/")).isPrefixOf remaining) && !remaining.isEmpty
        then false
        else true

/-- Characters replaced by the sanitizers (regex class <>:"/\|?* in
file_saver.py). -/
def unsafeChar (c : Char) : Bool :=
  c = '<' || c = '>' || c = ':' || c = '"' || c = '/' || c = '\\'
    || c = '|' || c = '?' || c = '*'

/-- re.sub of the unsafe-character class with an underscore. -/
def replaceUnsafe (s : Chars) : Chars := s.map (fun c => if unsafeChar c then '_' else c)

/-- Dot-or-space test for the strip(". ") calls of file_saver.py. -/
def dotSpace (c : Char) : Bool := c = '.' || c = ' '

/-- Python str.replace for a one-character pattern: every occurrence of the
character is replaced by the given string. -/
def pyReplaceChar (needle : Char) (repl : Chars) (s : Chars) : Chars :=
  s.flatMap (fun c => if c = needle then repl else [c])

/-- Embedding of _sanitize_query (file_saver.py): = becomes --, & becomes _,
remaining unsafe characters become _, capped at 200 characters. -/
def sanitize_query (query : Chars) : Chars :=
  let result := pyReplaceChar '=' (chars ("--")) query
  let result := pyReplaceChar '&' (chars ("_")) result
  let result := replaceUnsafe result
  if result.length > 200 then result.take 200 else result

/-- Embedding of _sanitize_filename (file_saver.py): replace unsafe
characters, strip dots and spaces at both ends, default to page.html when
empty, and force a .html extension unless one of .html/.pdf is present. -/
def sanitize_filename (filename : Chars) : Chars :=
  let sanitized := replaceUnsafe filename
  let sanitized := pyStrip dotSpace sanitized
  let sanitized := if sanitized.isEmpty then chars ("page.html") else sanitized
  let lower := lowerStr sanitized
  if (chars (".html")).isSuffixOf lower || (chars (".pdf")).isSuffixOf lower then sanitized
  else sanitized ++ chars (".html")

/-- Embedding of _sanitize_path (file_saver.py), returning the directory
components that os.path.join would receive: each slash-separated part has
its unsafe characters replaced and dots/spaces stripped, and empty parts
are dropped. -/
def sanitize_path (path : Chars) : List Chars :=
  ((pySplit '/' path).map (fun part => pyStrip dotSpace (replaceUnsafe part))).filter
    (fun c => !c.isEmpty)

/-- Embedding of url_to_filepath (file_saver.py), returning the list of
path components below the output folder (os.path.join of the output folder
with these components gives the Python result). -/
def url_to_filepath (url base_url : Chars) : List Chars :=
  let url_parsed := urlparse url
  let base_parsed := urlparse base_url
  let base_path := rstripSlash base_parsed.path
  let url_path := url_parsed.path
  let relative_path := if base_path.isPrefixOf url_path then url_path.drop base_path.length
                       else url_path
  let relative_path := pyStrip (fun c => c = '/') relative_path
  let relative_path := unquote relative_path
  let query_part := if !url_parsed.query.isEmpty then sanitize_query url_parsed.query else []
  let pair : Chars × Chars :=
    if relative_path.isEmpty && query_part.isEmpty then (chars ("index.html"), [])
    else if !query_part.isEmpty && relative_path.isEmpty then (query_part ++ chars (".html"), [])
    else if !query_part.isEmpty then (query_part ++ chars (".html"), relative_path)
    else (chars ("index.html"), relative_path)
  let sub_dir := if !pair.2.isEmpty then sanitize_path pair.2 else []
  sub_dir ++ [sanitize_filename pair.1]

/-- POSIX os.path.basename: the part of the path after the last slash. -/
def basename (p : Chars) : Chars := (pySplit '/' p).getLastD []

/-- Embedding of pdf_url_to_filepath (file_saver.py), returning the single
filename placed directly in the output folder: the basename of the
percent-decoded URL path (download.pdf when empty), sanitized, with a .pdf
extension forced. -/
def pdf_url_to_filepath (url : Chars) : Chars :=
  let path := unquote (urlparse url).path
  let filename := if basename path = [] then chars ("download.pdf") else basename path
  let filename := sanitize_filename filename
  if (chars (".pdf")).isSuffixOf (lowerStr filename) then filename
  else filename ++ chars (".pdf")

/-- Attribute value of a div: single string, or multi-valued (class lists
in BeautifulSoup). -/
inductive AttrValue where
  | single (s : Chars)
  | multi (vs : List Chars)
deriving DecidableEq

/-- A div element, reduced to its attribute map (the only data
html_filter.py inspects when scoping). -/
structure HtmlDiv where
  attrs : List (Chars × AttrValue)
deriving DecidableEq

/-- A parsed document, reduced to its list of div elements. -/
structure HtmlDoc where
  divs : List HtmlDiv
deriving DecidableEq

/-- Substring test (model of re.search with an escaped pattern). -/
def containsSub (needle : Chars) : Chars → Bool
  | [] => needle.isEmpty
  | c :: rest => needle.isPrefixOf (c :: rest) || containsSub needle rest

/-- Case-insensitive substring test (re.IGNORECASE search of the escaped
pattern inside the value). -/
def containsCI (hay pat : Chars) : Bool := containsSub (lowerStr pat) (lowerStr hay)

/-- BeautifulSoup div.get(name): value of the named attribute, if any. -/
def divGet (d : HtmlDiv) (name : Chars) : Option AttrValue :=
  (d.attrs.find? (fun a => a.1 == name)).map (fun a => a.2)

/-- Does an attribute value match the pattern: any value of a multi-valued
attribute, or the single value, contains the text case-insensitively. -/
def attrMatches (pat : Chars) : AttrValue → Bool
  | .single v => containsCI v pat
  | .multi vs => vs.any (fun v => containsCI v pat)

/-- Embedding of _filter_by_attribute (html_filter.py). -/
def filter_by_attribute (doc : HtmlDoc) (attrName attrText : Chars) : List HtmlDiv :=
  doc.divs.filter (fun d =>
    match divGet d attrName with
    | none => false
    | some v => attrMatches attrText v)

/-- Embedding of _filter_by_any_attribute (html_filter.py). -/
def filter_by_any_attribute (doc : HtmlDoc) (text : Chars) : List HtmlDiv :=
  doc.divs.filter (fun d => !d.attrs.isEmpty && d.attrs.any (fun a => attrMatches text a.2))

/-- An element of the searchable scope returned by filter_html: the whole
document, or one matching div container. -/
inductive ScopeElem where
  | whole (doc : HtmlDoc)
  | container (d : HtmlDiv)
deriving DecidableEq

/-- Python truthiness of an optional string (None and the empty string are
falsy). -/
def pyTruthy (o : Option Chars) : Bool :=
  match o with
  | none => false
  | some s => !s.isEmpty

/-- Embedding of filter_html (html_filter.py).  The boolean records whether
the no-matching-divs diagnostic (fallback to the whole document) was
printed. -/
def filter_html (doc : HtmlDoc) (limitationType limitationText : Option Chars) :
    List ScopeElem × Bool :=
  if !pyTruthy limitationText then ([.whole doc], false)
  else
    let text := limitationText.getD []
    let matchingDivs :=
      if pyTruthy limitationType then filter_by_attribute doc (limitationType.getD []) text
      else filter_by_any_attribute doc text
    if matchingDivs.isEmpty then ([.whole doc], true)
    else (matchingDivs.map .container, false)

/-- The run configuration fields the crawl engine reads (config.py /
crawler.py).  Browser mode is an external transport variant and is modelled
through the same transport oracle; login and timing fields do not affect
the state transitions modelled here. -/
structure CrawlConfig where
  input_address : Chars
  output_folder : Chars
  recursive : Bool
  max_pages : Nat
  resume : Bool
  content_types : Chars
deriving DecidableEq

/-- Outcome of one transport attempt (requests.Session.get): a response
with a status, a content-type that is or is not an HTML type, and a body;
or one of the exception classes the code catches. -/
inductive Attempt where
  | response (status : Nat) (htmlContent : Bool) (body : Chars)
  | connError
  | timeout
  | otherError (msg : Chars)
deriving DecidableEq

/-- External collaborators of the crawl engine: the transport (per URL and
1-based attempt number), the filesystem existence/size check and file
reader, the save outcome, and the link extractor (hrefs found by the
BeautifulSoup/regex extraction in a given HTML string fetched from a given
page URL). -/
structure World where
  transport : Chars → Nat → Attempt
  fileExists : Chars → Bool
  fileContent : Chars → Chars
  saveOk : Chars → Bool
  links : Chars → Chars → List Chars

/-- Mutable crawl state (Crawler.__init__), with two ghost fields: fetched
records every URL handed to the transport, history records every URL ever
appended to the queue. -/
structure CrawlState where
  queue : List Chars
  visited : List Chars
  queued : List Chars
  failed : List (Chars × Chars)
  saved_count : Nat
  fetched : List Chars
  history : List Chars
deriving DecidableEq

/-- The empty state built by Crawler.__init__. -/
def initState : CrawlState := ⟨[], [], [], [], 0, [], []⟩

/-- Append a URL to the queue, the ever-enqueued set and the ghost
history (the queue.append / queued.add pair in crawler.py). -/
def enqueue (s : CrawlState) (u : Chars) : CrawlState :=
  { s with queue := s.queue ++ [u], queued := s.queued ++ [u], history := s.history ++ [u] }

/-- Reason string for an HTTP failure, f-string HTTP status. -/
def httpReason (status : Nat) : Chars := chars ("HTTP ") ++ (toString status).data

/-- Loop body of Crawler._download: remaining attempts, current 1-based
attempt number, and the failure ledger so far.  Mirrors crawler.py: a
non-HTML content type returns None silently; raise_for_status turns a
status of 400 or more into an HTTPError; 404 is terminal with a ledger
entry; 429 always retries; other HTTP errors, connection errors and
timeouts retry and write one ledger entry when attempts run out; any other
request exception is terminal immediately. -/
def downloadAux (t : Nat → Attempt) (url : Chars) :
    Nat → Nat → List (Chars × Chars) → Option Chars × List (Chars × Chars)
  | 0, _, ledger => (none, ledger)
  | remaining + 1, attempt, ledger =>
    match t attempt with
    | .response status htmlContent body =>
      if !htmlContent then (none, ledger)
      else if status < 400 then (some body, ledger)
      else if status = 404 then (none, ledger ++ [(url, httpReason 404)])
      else if status = 429 then downloadAux t url remaining (attempt + 1) ledger
      else if attempt < 3 then downloadAux t url remaining (attempt + 1) ledger
      else (none, ledger ++ [(url, httpReason status)])
    | .connError =>
      if attempt < 3 then downloadAux t url remaining (attempt + 1) ledger
      else (none, ledger ++ [(url, chars ("Connection error"))])
    | .timeout =>
      if attempt < 3 then downloadAux t url remaining (attempt + 1) ledger
      else (none, ledger ++ [(url, chars ("Timeout"))])
    | .otherError msg => (none, ledger ++ [(url, msg)])

/-- Embedding of Crawler._download: up to 3 attempts starting at attempt 1;
falling out of the loop returns None without a ledger entry. -/
def download (t : Nat → Attempt) (url : Chars) (ledger : List (Chars × Chars)) :
    Option Chars × List (Chars × Chars) :=
  downloadAux t url 3 1 ledger

/-- Loop body of Crawler._download_binary: no content-type check and no
dedicated 429 branch; connection errors and timeouts share one branch and
one reason string. -/
def downloadBinAux (t : Nat → Attempt) (url : Chars) :
    Nat → Nat → List (Chars × Chars) → Option Chars × List (Chars × Chars)
  | 0, _, ledger => (none, ledger)
  | remaining + 1, attempt, ledger =>
    match t attempt with
    | .response status _ body =>
      if status < 400 then (some body, ledger)
      else if status = 404 then (none, ledger ++ [(url, httpReason 404)])
      else if attempt < 3 then downloadBinAux t url remaining (attempt + 1) ledger
      else (none, ledger ++ [(url, httpReason status)])
    | .connError =>
      if attempt < 3 then downloadBinAux t url remaining (attempt + 1) ledger
      else (none, ledger ++ [(url, chars ("Connection/Timeout"))])
    | .timeout =>
      if attempt < 3 then downloadBinAux t url remaining (attempt + 1) ledger
      else (none, ledger ++ [(url, chars ("Connection/Timeout"))])
    | .otherError msg => (none, ledger ++ [(url, msg)])

/-- Embedding of Crawler._download_binary. -/
def download_binary (t : Nat → Attempt) (url : Chars) (ledger : List (Chars × Chars)) :
    Option Chars × List (Chars × Chars) :=
  downloadBinAux t url 3 1 ledger

/-- Body of the enqueue loop in Crawler._extract_and_queue_links for one
href: resolve it, skip it when unresolvable or already enqueued, apply the
scope test unless the resolved URL ends in .pdf, then enqueue. -/
def queueLink (cfg : CrawlConfig) (s : CrawlState) (pageUrl href : Chars) : CrawlState :=
  let resolved := resolve_url pageUrl href
  if resolved.isEmpty then s
  else if resolved ∈ s.queued then s
  else
    let is_pdf := (chars (".pdf")).isSuffixOf (lowerStr resolved)
    if !is_pdf && !(is_in_scope resolved cfg.input_address) then s
    else enqueue s resolved

/-- Embedding of the enqueue loop of Crawler._extract_and_queue_links over
an extracted href list. -/
def extract_and_queue_links (cfg : CrawlConfig) (s : CrawlState) (hrefs : List Chars)
    (pageUrl : Chars) : CrawlState :=
  hrefs.foldl (fun st h => queueLink cfg st pageUrl h) s

/-- Join path components with the separator (model of os.path.join on
already-sanitized relative components). -/
def joinPath (parts : List Chars) : Chars := pyJoin '/' parts

/-- Embedding of Crawler._is_pdf_url: the URL path, lowercased, ends in
.pdf. -/
def is_pdf_url (u : Chars) : Bool := (chars (".pdf")).isSuffixOf (lowerStr (urlparse u).path)

/-- Embedding of Crawler._process_pdf_url: map to a path, skip when
resuming over an existing non-empty file, otherwise fetch binary and save. -/
def process_pdf_url (cfg : CrawlConfig) (w : World) (s : CrawlState) (url : Chars) :
    CrawlState :=
  let filepath := joinPath [cfg.output_folder, pdf_url_to_filepath url]
  if cfg.resume && w.fileExists filepath then
    { s with saved_count := s.saved_count + 1 }
  else
    let fetched := download_binary (w.transport url) url s.failed
    let s1 := { s with failed := fetched.2, fetched := s.fetched ++ [url] }
    match fetched.1 with
    | none => s1
    | some _ =>
      if w.saveOk filepath then { s1 with saved_count := s1.saved_count + 1 } else s1

/-- Embedding of Crawler._process_html_url (browser mode reduces to the
same transport oracle): resume over an existing non-empty file counts the
page as saved without fetching and, in recursive mode, re-extracts links
from the saved bytes; otherwise fetch, save, and extract links when
recursive or when the content policy asks for pdf/all. -/
def process_html_url (cfg : CrawlConfig) (w : World) (s : CrawlState) (url : Chars) :
    CrawlState :=
  let filepath := joinPath (cfg.output_folder :: url_to_filepath url cfg.input_address)
  if cfg.resume && w.fileExists filepath then
    let s1 := { s with saved_count := s.saved_count + 1 }
    if cfg.recursive then
      extract_and_queue_links cfg s1 (w.links (w.fileContent filepath) url) url
    else s1
  else
    let fetched := download (w.transport url) url s.failed
    let s1 := { s with failed := fetched.2, fetched := s.fetched ++ [url] }
    match fetched.1 with
    | none => s1
    | some html =>
      if w.saveOk filepath then
        let s2 := { s1 with saved_count := s1.saved_count + 1 }
        if cfg.recursive || cfg.content_types = chars ("pdf")
           || cfg.content_types = chars ("all") then
          extract_and_queue_links cfg s2 (w.links html url) url
        else s2
      else s1

/-- Embedding of Crawler._process_url: dispatch on the URL suffix. -/
def process_url (cfg : CrawlConfig) (w : World) (s : CrawlState) (url : Chars) :
    CrawlState :=
  if is_pdf_url url then process_pdf_url cfg w s url else process_html_url cfg w s url

/-- Embedding of the while loop of Crawler.crawl, with fuel for
termination: stop on an empty queue or an exhausted save budget, pop the
head, skip it when already visited, otherwise mark it visited and process
it. -/
def crawlLoop (cfg : CrawlConfig) (w : World) : Nat → CrawlState → CrawlState
  | 0, s => s
  | fuel + 1, s =>
    match s.queue with
    | [] => s
    | url :: rest =>
      if cfg.max_pages > 0 && decide (s.saved_count ≥ cfg.max_pages) then s
      else
        let s1 := { s with queue := rest }
        if url ∈ s1.visited then crawlLoop cfg w fuel s1
        else crawlLoop cfg w fuel
          (process_url cfg w { s1 with visited := s1.visited ++ [url] } url)

/-- Embedding of Crawler.crawl: seed the queue and dedup set with the input
address (trailing slashes stripped) and run the loop. -/
def crawl (cfg : CrawlConfig) (w : World) (fuel : Nat) : CrawlState :=
  crawlLoop cfg w fuel (enqueue initState (rstripSlash cfg.input_address))

/-- Modelled from the spec: the overlap correction as the specification
words it, splicing at the LONGEST suffix of the base path that equals a
prefix of the reference path (the source scans shortest-first; this variant
scans longest-first and is compared against the source). -/
def fix_overlap_longest (base_url href resolved : Chars) : Chars :=
  if (chars ("/")).isPrefixOf href || (chars ("http://")).isPrefixOf href
     || (chars ("https://")).isPrefixOf href || (chars ("//")).isPrefixOf href then
    resolved
  else
    let base_parsed := urlparse base_url
    let resolved_parsed := urlparse resolved
    let base_path := rstripSlash base_parsed.path
    let href_path := (urlparse href).path
    let base_segments := pySplit '/' base_path
    let href_segments := pySplit '/' href_path
    match (((List.range base_segments.length).drop 1).reverse).find?
        (overlapPred base_segments href_segments) with
    | some i =>
      let correct_path := base_path ++ '/' :: pyJoin '/' (href_segments.drop i)
      let correct_path := if rstripSlash correct_path = [] then chars ("/")
                          else rstripSlash correct_path
      let href_query := (urlparse href).query
      urlunparse base_parsed.scheme base_parsed.netloc correct_path
        (if href_query ≠ [] then href_query else resolved_parsed.query) []
    | none => resolved

/-- Modelled from the spec: resolve with the longest-overlap correction in
place of the source's shortest-overlap scan. -/
def resolve_url_longest (base_url href : Chars) : Chars :=
  if href.isEmpty || (chars ("#")).isPrefixOf href || (chars ("javascript:")).isPrefixOf href
     || (chars ("mailto:")).isPrefixOf href || (chars ("tel:")).isPrefixOf href then []
  else
    let href := pyStrip isPyWhitespace href
    if (chars ("http://")).isPrefixOf href || (chars ("https://")).isPrefixOf href then
      normalize_url href
    else
      let resolved := urljoin base_url href
      let resolved := fix_overlap_longest base_url href resolved
      normalize_url resolved

/-- A filesystem path component that cannot escape its directory: nonempty,
not a dot or dot-dot entry, and free of separators. -/
def safeComponent (c : Chars) : Prop :=
  c ≠ [] ∧ c ≠ chars (".") ∧ c ≠ chars ("..") ∧ ('/' ∉ c) ∧ ('\\' ∉ c)

/-- Query characters outside the set rewritten by _sanitize_query: not a
dash or underscore (the output letters of the substitution) and not one of
the replaced unsafe characters.  The encoded = and & are allowed. -/
def goodQueryChar (c : Char) : Bool := !(c = '-' || c = '_' || unsafeChar c)

/-- Per-character encoding performed by _sanitize_query on such
characters. -/
def qEnc (c : Char) : Chars :=
  if c = '=' then ['-', '-'] else if c = '&' then ['_'] else [c]

/-- Filesystem path the crawl engine maps a URL to (pdf or html branch of
_process_url). -/
def mappedPath (cfg : CrawlConfig) (url : Chars) : Chars :=
  if is_pdf_url url then joinPath [cfg.output_folder, pdf_url_to_filepath url]
  else joinPath (cfg.output_folder :: url_to_filepath url cfg.input_address)

/-- Attachment filename as a function of the percent-decoded final path
segment only (what pdf_url_to_filepath computes, by the C10 theorem). -/
def pdfNameOfSegment (decodedSeg : Chars) : Chars :=
  let filename := if basename decodedSeg = [] then chars ("download.pdf")
                  else basename decodedSeg
  let filename := sanitize_filename filename
  if (chars (".pdf")).isSuffixOf (lowerStr filename) then filename
  else filename ++ chars (".pdf")

/-- Build an absolute URL string from scheme, host and path components. -/
def mkUrl (sch host path : Chars) : Chars := sch ++ chars ("://") ++ host ++ path

/-- Well-formed lowercase alphabetic scheme (http, https, ...). -/
def wfScheme (sch : Chars) : Prop :=
  sch ≠ [] ∧ ∀ c ∈ sch, c.isAlpha = true ∧ c.toLower = c

/-- Well-formed host: nonempty and free of the characters that end the
netloc or start another URL component. -/
def wfHost (h : Chars) : Prop :=
  h ≠ [] ∧ ∀ c ∈ h, ¬(c = '/' ∨ c = '?' ∨ c = '#' ∨ c = ':')

/-- Well-formed absolute path: empty or slash-led, free of query and
fragment delimiters. -/
def wfPath (p : Chars) : Prop :=
  (p = [] ∨ (chars ("/")).isPrefixOf p) ∧ ∀ c ∈ p, ¬(c = '?' ∨ c = '#')

/-- A plain path-segment character: none of the URL delimiters and no
whitespace. -/
def plainChar (c : Char) : Prop :=
  ¬(c = '/' ∨ c = '?' ∨ c = '#' ∨ c = ':' ∨ c = '%' ∨ isPyWhitespace c = true)

/-- Well-formed nonempty path segment made of plain characters. -/
def wfSeg (s : Chars) : Prop := s ≠ [] ∧ ∀ c ∈ s, plainChar c

/-- Well-formed query string for the relative-reference theorems. -/
def wfQuery (q : Chars) : Prop :=
  ∀ c ∈ q, ¬(c = '#' ∨ c = ':' ∨ c = '?' ∨ isPyWhitespace c = true)

/-- The scope root path is a segment-aligned prefix of the candidate path:
a prefix that either is the whole path or ends at a slash boundary. -/
def segAlignedPrefixOf (bp up : Chars) : Prop :=
  bp <+: up ∧ (up.length = bp.length ∨ (chars ("/")).isPrefixOf (up.drop bp.length))
instance (c : Chars) : Decidable (safeComponent c) := by
  unfold safeComponent; infer_instance

instance (c : Char) : Decidable (plainChar c) := by
  unfold plainChar; infer_instance

instance (s : Chars) : Decidable (wfScheme s) := by
  unfold wfScheme; infer_instance

instance (s : Chars) : Decidable (wfHost s) := by
  unfold wfHost; infer_instance

instance (s : Chars) : Decidable (wfPath s) := by
  unfold wfPath; infer_instance

instance (s : Chars) : Decidable (wfSeg s) := by
  unfold wfSeg; infer_instance

instance (s : Chars) : Decidable (wfQuery s) := by
  unfold wfQuery; infer_instance

instance (bp up : Chars) : Decidable (segAlignedPrefixOf bp up) := by
  unfold segAlignedPrefixOf; infer_instance


/-- No two adjacent slashes (the paths on which _normalize_url is the
identity). -/
def noDoubleSlash : Chars → Prop
  | [] => True
  | [_] => True
  | a :: b :: rest => ¬(a = '/' ∧ b = '/') ∧ noDoubleSlash (b :: rest)

/-! Helper lemmas about the string model. -/

theorem dropWhile_head_false {p : Char → Bool} :
    ∀ (s : Chars) (c : Char), (s.dropWhile p).head? = some c → p c = false := by
  intro s c h
  induction s with
  | nil => simp [List.dropWhile] at h
  | cons a t ih =>
    rw [List.dropWhile_cons] at h
    by_cases hp : p a = true
    · simp [hp] at h
      exact ih h
    · simp [hp] at h
      subst h
      simpa using hp

theorem dropRightWhile_getLast_false {p : Char → Bool} (s : Chars) (c : Char)
    (h : (dropRightWhile p s).getLast? = some c) : p c = false := by
  unfold dropRightWhile at h
  rw [List.getLast?_reverse] at h
  exact dropWhile_head_false _ _ h

theorem dropRightWhile_sublist (p : Char → Bool) (s : Chars) :
    List.Sublist (dropRightWhile p s) s := by
  unfold dropRightWhile
  have h := (List.dropWhile_sublist (l := s.reverse) p).reverse
  simpa using h

theorem pyStrip_sublist (p : Char → Bool) (s : Chars) :
    List.Sublist (pyStrip p s) s :=
  (dropRightWhile_sublist p (s.dropWhile p)).trans (List.dropWhile_sublist p)

theorem mem_pyStrip {p : Char → Bool} {s : Chars} {c : Char}
    (h : c ∈ pyStrip p s) : c ∈ s :=
  (pyStrip_sublist p s).subset h

theorem dropRightWhile_isPrefix (p : Char → Bool) (s : Chars) :
    dropRightWhile p s <+: s := by
  unfold dropRightWhile
  have h : s.reverse.dropWhile p <:+ s.reverse := List.dropWhile_suffix p
  have h2 := List.reverse_prefix.mpr h
  simpa using h2

theorem pyStrip_head_false {p : Char → Bool} {s : Chars} {c : Char}
    (h : (pyStrip p s).head? = some c) : p c = false := by
  unfold pyStrip at h
  have hpre := dropRightWhile_isPrefix p (s.dropWhile p)
  obtain ⟨t, ht⟩ := hpre
  have hne : dropRightWhile p (s.dropWhile p) ≠ [] := by
    intro hnil
    rw [hnil] at h
    simp at h
  apply dropWhile_head_false (p := p) s c
  rw [← ht]
  rcases hd : dropRightWhile p (s.dropWhile p) with _ | ⟨a, t2⟩
  · exact absurd hd hne
  · rw [hd] at h
    simp at h
    subst h
    simp

theorem pyStrip_getLast_false {p : Char → Bool} {s : Chars} {c : Char}
    (h : (pyStrip p s).getLast? = some c) : p c = false :=
  dropRightWhile_getLast_false _ c h

theorem dropWhile_eq_self_of_all {p : Char → Bool} {s : Chars}
    (h : ∀ c ∈ s, p c = false) : s.dropWhile p = s := by
  induction s with
  | nil => simp
  | cons a t ih =>
    rw [List.dropWhile_cons]
    have ha := h a (by simp)
    simp [ha]

theorem dropRightWhile_eq_self_of_all {p : Char → Bool} {s : Chars}
    (h : ∀ c ∈ s, p c = false) : dropRightWhile p s = s := by
  unfold dropRightWhile
  rw [dropWhile_eq_self_of_all (fun c hc => h c (by simpa using hc))]
  simp

theorem pyStrip_eq_self_of_all {p : Char → Bool} {s : Chars}
    (h : ∀ c ∈ s, p c = false) : pyStrip p s = s := by
  unfold pyStrip
  rw [dropWhile_eq_self_of_all h]
  exact dropRightWhile_eq_self_of_all h

theorem pyRstrip_eq_self_of_all {p : Char → Bool} {s : Chars}
    (h : ∀ c ∈ s, p c = false) : pyRstrip p s = s :=
  dropRightWhile_eq_self_of_all h

theorem mem_replaceUnsafe_not_slash {s : Chars} {c : Char} (h : c ∈ replaceUnsafe s) :
    c ≠ '/' ∧ c ≠ '\\' := by
  unfold replaceUnsafe at h
  rw [List.mem_map] at h
  obtain ⟨a, _, ha⟩ := h
  by_cases hu : unsafeChar a = true
  · simp [hu] at ha
    subst ha
    exact ⟨by decide, by decide⟩
  · simp [hu] at ha
    subst ha
    constructor
    · intro hc
      subst hc
      simp [unsafeChar] at hu
    · intro hc
      subst hc
      simp [unsafeChar] at hu

theorem safeComponent_of (x : Chars) (hne : x ≠ []) (hh : x.head? ≠ some '.')
    (hs : ∀ c ∈ x, c ≠ '/' ∧ c ≠ '\\') : safeComponent x := by
  refine ⟨hne, ?_, ?_, fun hm => (hs _ hm).1 rfl, fun hm => (hs _ hm).2 rfl⟩
  · intro hc
    apply hh
    rw [hc]
    decide
  · intro hc
    apply hh
    rw [hc]
    decide

theorem pyStrip_dotSpace_head {s : Chars} :
    (pyStrip dotSpace s).head? ≠ some '.' := by
  intro hc
  have := pyStrip_head_false hc
  simp [dotSpace] at this

theorem sanitize_path_safe (s : Chars) : ∀ comp ∈ sanitize_path s, safeComponent comp := by
  intro comp hcomp
  unfold sanitize_path at hcomp
  rw [List.mem_filter] at hcomp
  obtain ⟨hmem, hne⟩ := hcomp
  rw [List.mem_map] at hmem
  obtain ⟨part, _, hpart⟩ := hmem
  subst hpart
  refine safeComponent_of _ ?_ pyStrip_dotSpace_head ?_
  · intro hc
    rw [hc] at hne
    simp at hne
  · intro c hc
    exact mem_replaceUnsafe_not_slash (mem_pyStrip hc)
theorem safeComponent_force_ext {s1 : Chars} (hne : s1 ≠ []) (hh : s1.head? ≠ some '.')
    (hs : ∀ c ∈ s1, c ≠ '/' ∧ c ≠ '\\') :
    safeComponent (if ((chars (".html")).isSuffixOf (lowerStr s1)
        || (chars (".pdf")).isSuffixOf (lowerStr s1)) = true
      then s1 else s1 ++ chars (".html")) := by
  split
  · exact safeComponent_of _ hne hh hs
  · refine safeComponent_of _ ?_ ?_ ?_
    · intro hc
      rcases List.append_eq_nil.mp hc with ⟨h1, h2⟩
      exact absurd h2 (by decide)
    · rcases hd : s1 with _ | ⟨a, t⟩
      · exact absurd hd hne
      · rw [List.cons_append]
        simp only [List.head?_cons]
        intro hc
        apply hh
        rw [hd]
        simpa using hc
    · intro c hc
      rcases List.mem_append.mp hc with hm | hm
      · exact hs _ hm
      · simp [chars] at hm
        rcases hm with h | h | h | h | h <;> subst h <;> exact ⟨by decide, by decide⟩

theorem sanitize_filename_safe (f : Chars) : safeComponent (sanitize_filename f) := by
  simp only [sanitize_filename]
  by_cases hB : (pyStrip dotSpace (replaceUnsafe f)).isEmpty = true
  · rw [if_pos hB]
    exact safeComponent_force_ext (by decide) (by decide) (by decide)
  · rw [if_neg hB]
    have hne : pyStrip dotSpace (replaceUnsafe f) ≠ [] := by
      intro hc
      rw [hc] at hB
      simp at hB
    exact safeComponent_force_ext hne pyStrip_dotSpace_head
      (fun c hc => mem_replaceUnsafe_not_slash (mem_pyStrip hc))

/-- C5: every component of the filesystem path produced by url_to_filepath
(the path mapper) is independently sanitized: it is nonempty, is not a dot
or dot-dot entry, and contains no path separator, so the mapped file always
stays inside the output root. -/
theorem spec_C5 (url base_url : Chars) :
    ∀ comp ∈ url_to_filepath url base_url, safeComponent comp := by
  intro comp hcomp
  have hshape : ∃ x fn, url_to_filepath url base_url =
      (if !x.isEmpty then sanitize_path x else []) ++ [sanitize_filename fn] := ⟨_, _, rfl⟩
  obtain ⟨x, fn, hx⟩ := hshape
  rw [hx] at hcomp
  rcases List.mem_append.mp hcomp with hm | hm
  · split at hm
    · exact sanitize_path_safe _ comp hm
    · simp at hm
  · rw [List.mem_singleton] at hm
    subst hm
    exact sanitize_filename_safe _

set_option maxHeartbeats 1000000 in
/-- C5 witness: concrete evaluation at the crawl root URL. -/
theorem spec_C5_witness :
    safeComponent (chars ("index.html")) ∧
      chars ("index.html") ∈ url_to_filepath (chars ("https://h/a")) (chars ("https://h/a")) := by
  have hm : chars ("index.html") ∈ url_to_filepath (chars ("https://h/a")) (chars ("https://h/a")) := by
    decide
  exact ⟨spec_C5 (chars ("https://h/a")) (chars ("https://h/a")) _ hm, hm⟩

/-! Lemmas for the query-folding claim. -/

theorem pyReplaceChar_cons (needle : Char) (repl : Chars) (c : Char) (q : Chars) :
    pyReplaceChar needle repl (c :: q) =
      (if c = needle then repl else [c]) ++ pyReplaceChar needle repl q := by
  simp [pyReplaceChar]

theorem replace_compose (q : Chars) :
    pyReplaceChar '&' (chars ("_")) (pyReplaceChar '=' (chars ("--")) q) =
      q.flatMap qEnc := by
  induction q with
  | nil => rfl
  | cons c cs ih =>
    rw [pyReplaceChar_cons, List.flatMap_cons]
    unfold pyReplaceChar
    rw [List.flatMap_append]
    unfold pyReplaceChar at ih
    rw [ih]
    congr 1
    by_cases hc : c = '='
    · subst hc
      decide
    · rw [if_neg hc]
      by_cases hc2 : c = '&'
      · subst hc2
        decide
      · simp [qEnc, hc, hc2]

theorem replaceUnsafe_eq_self {s : Chars} (h : ∀ c ∈ s, unsafeChar c = false) :
    replaceUnsafe s = s := by
  unfold replaceUnsafe
  induction s with
  | nil => rfl
  | cons c cs ih =>
    rw [List.map_cons]
    have hc := h c (by simp)
    rw [ih (fun d hd => h d (by simp [hd]))]
    simp [hc]

theorem mem_flatMap_qEnc {q : Chars} {c : Char} (h : c ∈ q.flatMap qEnc) :
    c = '-' ∨ c = '_' ∨ c ∈ q := by
  rw [List.mem_flatMap] at h
  obtain ⟨a, ha, hc⟩ := h
  unfold qEnc at hc
  by_cases h1 : a = '='
  · simp [h1] at hc
    simp [hc]
  · by_cases h2 : a = '&'
    · simp [h1, h2] at hc
      simp [hc]
    · simp [h1, h2] at hc
      subst hc
      right; right; exact ha

theorem qEnc_ne_nil (c : Char) : qEnc c ≠ [] := by
  unfold qEnc
  by_cases h1 : c = '=' <;> by_cases h2 : c = '&' <;> simp [h1, h2]

theorem flatMap_qEnc_inj : ∀ (q₁ q₂ : Chars),
    (∀ c ∈ q₁, goodQueryChar c = true) → (∀ c ∈ q₂, goodQueryChar c = true) →
    q₁.flatMap qEnc = q₂.flatMap qEnc → q₁ = q₂ := by
  intro q₁
  induction q₁ with
  | nil =>
    intro q₂ _ _ heq
    cases q₂ with
    | nil => rfl
    | cons d ds =>
      exfalso
      rw [List.flatMap_nil, List.flatMap_cons] at heq
      have := qEnc_ne_nil d
      rcases hq : qEnc d with _ | ⟨x, xs⟩
      · exact this hq
      · rw [hq] at heq
        simp at heq
  | cons c cs ih =>
    intro q₂ h1 h2 heq
    cases q₂ with
    | nil =>
      exfalso
      rw [List.flatMap_cons, List.flatMap_nil] at heq
      have := qEnc_ne_nil c
      rcases hq : qEnc c with _ | ⟨x, xs⟩
      · exact this hq
      · rw [hq] at heq
        simp at heq
    | cons d ds =>
      rw [List.flatMap_cons, List.flatMap_cons] at heq
      have hcg := h1 c (by simp)
      have hdg := h2 d (by simp)
      have hcd : c ≠ '-' ∧ c ≠ '_' := by
        constructor <;> intro hx <;> rw [hx] at hcg <;> simp [goodQueryChar] at hcg
      have hdd : d ≠ '-' ∧ d ≠ '_' := by
        constructor <;> intro hx <;> rw [hx] at hdg <;> simp [goodQueryChar] at hdg
      have htail : c = d ∧ cs.flatMap qEnc = ds.flatMap qEnc := by
        unfold qEnc at heq
        by_cases hc1 : c = '=' <;> by_cases hd1 : d = '='
        · simp [hc1, hd1] at heq
          exact ⟨by rw [hc1, hd1], heq⟩
        · by_cases hd2 : d = '&'
          · simp [hc1, hd1, hd2] at heq
          · simp [hc1, hd1, hd2] at heq
            exact absurd heq.1.symm hdd.1
        · by_cases hc2 : c = '&'
          · simp [hc1, hc2, hd1] at heq
          · simp [hc1, hc2, hd1] at heq
            exact absurd heq.1 hcd.1
        · by_cases hc2 : c = '&' <;> by_cases hd2 : d = '&'
          · simp [hc1, hc2, hd1, hd2] at heq
            exact ⟨by rw [hc2, hd2], heq⟩
          · simp [hc1, hc2, hd1, hd2] at heq
            exact absurd heq.1.symm hdd.2
          · simp [hc1, hc2, hd1, hd2] at heq
            exact absurd heq.1 hcd.2
          · simp [hc1, hc2, hd1, hd2] at heq
            exact ⟨heq.1, heq.2⟩
      have := ih ds (fun e he => h1 e (by simp [he])) (fun e he => h2 e (by simp [he])) htail.2
      rw [htail.1, this]

theorem flatMap_qEnc_length (q : Chars) : (q.flatMap qEnc).length ≤ 2 * q.length := by
  induction q with
  | nil => simp
  | cons c cs ih =>
    rw [List.flatMap_cons, List.length_append]
    have hc : (qEnc c).length ≤ 2 := by
      unfold qEnc
      by_cases h1 : c = '=' <;> by_cases h2 : c = '&' <;> simp [h1, h2]
    simp only [List.length_cons]
    omega

theorem sanitize_query_eq_flatMap {q : Chars} (hg : ∀ c ∈ q, goodQueryChar c = true)
    (hlen : q.length ≤ 100) : sanitize_query q = q.flatMap qEnc := by
  simp only [sanitize_query]
  rw [replace_compose]
  have hgood : ∀ c ∈ q.flatMap qEnc, unsafeChar c = false := by
    intro c hc
    rcases mem_flatMap_qEnc hc with h | h | h
    · rw [h]; decide
    · rw [h]; decide
    · have := hg c h
      simp [goodQueryChar] at this
      exact this.2
  rw [replaceUnsafe_eq_self hgood]
  have := flatMap_qEnc_length q
  have hle : (q.flatMap qEnc).length ≤ 200 := by omega
  rw [if_neg (by omega)]

/-- C6 counterexample: the folding of _sanitize_query is not reversible:
the distinct query strings a&b and a_b fold to the same filename part, so
the original query cannot be recovered and the map is not injective. -/
theorem spec_C6_cex :
    sanitize_query (chars ("a&b")) = sanitize_query (chars ("a_b")) ∧
      chars ("a&b") ≠ chars ("a_b") := by
  constructor
  · decide
  · decide

/-- C6 (amended): the query folding (= to --, & to _, remaining unsafe
characters to _, capped at 200) is deterministic but not injective in
general; it is injective on queries whose characters avoid the output
alphabet of the substitution (dash, underscore and the replaced unsafe
characters) and whose folded form stays under the cap. -/
theorem spec_C6 (q₁ q₂ : Chars)
    (h1 : ∀ c ∈ q₁, goodQueryChar c = true) (h2 : ∀ c ∈ q₂, goodQueryChar c = true)
    (hl1 : q₁.length ≤ 100) (hl2 : q₂.length ≤ 100)
    (heq : sanitize_query q₁ = sanitize_query q₂) : q₁ = q₂ := by
  rw [sanitize_query_eq_flatMap h1 hl1, sanitize_query_eq_flatMap h2 hl2] at heq
  exact flatMap_qEnc_inj q₁ q₂ h1 h2 heq

/-- C6 witness: the amended injectivity applied at concrete queries. -/
theorem spec_C6_witness :
    chars ("topic=a&ref=b") = chars ("topic=a&ref=b") :=
  spec_C6 (chars ("topic=a&ref=b")) (chars ("topic=a&ref=b"))
    (by decide) (by decide) (by decide) (by decide) rfl

/-- C8: whenever an attribute-text filter is configured (a truthy
limitation text, with or without an attribute name) but no div matches it,
filter_html falls back to the whole document as the single searchable scope
and emits the fallback diagnostic; and in every case the returned scope
list is nonempty. -/
theorem spec_C8 (doc : HtmlDoc) (limitationType limitationText : Option Chars) :
    (filter_html doc limitationType limitationText).1 ≠ [] ∧
    (pyTruthy limitationText = true →
      (if pyTruthy limitationType = true
        then filter_by_attribute doc (limitationType.getD []) (limitationText.getD [])
        else filter_by_any_attribute doc (limitationText.getD [])) = [] →
      filter_html doc limitationType limitationText = ([ScopeElem.whole doc], true)) := by
  constructor
  · simp only [filter_html]
    by_cases ht : pyTruthy limitationText = true
    · rw [if_neg (by simp [ht])]
      split
      all_goals split
      · simp
      · rename_i hne
        simpa using hne
      · simp
      · rename_i hne
        simpa using hne
    · rw [if_pos (by simp [ht])]
      simp
  · intro ht hm
    simp only [filter_html]
    rw [if_neg (by simp [ht])]
    rw [hm]
    simp

/-- C8 witness: a configured filter with zero matching divs falls back to
the whole document with the diagnostic. -/
theorem spec_C8_witness :
    filter_html (HtmlDoc.mk [HtmlDiv.mk [(chars ("class"), AttrValue.multi [chars ("nav")])]])
        (some (chars ("class"))) (some (chars ("toc")))
      = ([ScopeElem.whole (HtmlDoc.mk [HtmlDiv.mk
          [(chars ("class"), AttrValue.multi [chars ("nav")])]])], true) := by
  exact (spec_C8 (HtmlDoc.mk [HtmlDiv.mk [(chars ("class"), AttrValue.multi [chars ("nav")])]])
    (some (chars ("class"))) (some (chars ("toc")))).2 (by decide) (by decide)

/-- C9: a discovered reference whose resolved URL is classified as an
attachment (lowercased URL ends in .pdf) bypasses the scope test entirely
in the enqueue loop: whatever the configured scope root, it is enqueued
exactly when it is not already in the ever-enqueued set. -/
theorem spec_C9 (cfg : CrawlConfig) (s : CrawlState) (pageUrl href : Chars)
    (hpdf : (chars (".pdf")).isSuffixOf (lowerStr (resolve_url pageUrl href)) = true)
    (hne : resolve_url pageUrl href ≠ []) :
    queueLink cfg s pageUrl href =
      if resolve_url pageUrl href ∈ s.queued then s
      else enqueue s (resolve_url pageUrl href) := by
  unfold queueLink
  rw [if_neg (by simpa using hne)]
  by_cases hq : resolve_url pageUrl href ∈ s.queued
  · rw [if_pos hq, if_pos hq]
  · rw [if_neg hq, if_neg hq]
    rw [if_neg (by simp [hpdf])]

set_option maxHeartbeats 1000000 in
/-- C9 witness: the cdn attachment of the specification scenario is out of
scope for the root yet still enqueued, filtered only by the seen check. -/
theorem spec_C9_witness :
    is_in_scope (resolve_url (chars ("https://x.test/docs/v1")) (chars ("https://cdn.test/file.pdf")))
        (chars ("https://x.test/docs/v1")) = false ∧
    queueLink (CrawlConfig.mk (chars ("https://x.test/docs/v1")) (chars ("out")) true 0 false
        (chars ("all"))) initState (chars ("https://x.test/docs/v1"))
        (chars ("https://cdn.test/file.pdf"))
      = enqueue initState (chars ("https://cdn.test/file.pdf")) := by
  constructor
  · decide
  · have h := spec_C9 (CrawlConfig.mk (chars ("https://x.test/docs/v1")) (chars ("out")) true 0
      false (chars ("all"))) initState (chars ("https://x.test/docs/v1"))
      (chars ("https://cdn.test/file.pdf")) (by decide) (by decide)
    rw [h]
    decide

/-! Lemmas for the retry-wrapped fetcher. -/

theorem downloadAux_ledger_shape (t : Nat → Attempt) (url : Chars) :
    ∀ (remaining attempt : Nat) (ledger : List (Chars × Chars)),
      (downloadAux t url remaining attempt ledger).2 = ledger ∨
      ∃ r, (downloadAux t url remaining attempt ledger).2 = ledger ++ [(url, r)] := by
  intro remaining
  induction remaining with
  | zero => intro attempt ledger; left; rfl
  | succ n ih =>
    intro attempt ledger
    unfold downloadAux
    cases ht : t attempt with
    | response status htmlContent body =>
      dsimp only
      cases htmlContent with
      | false => left; rfl
      | true =>
        rw [if_neg (by simp)]
        by_cases h1 : status < 400
        · rw [if_pos h1]; left; rfl
        · rw [if_neg h1]
          by_cases h2 : status = 404
          · rw [if_pos h2]; right; exact ⟨_, rfl⟩
          · rw [if_neg h2]
            by_cases h3 : status = 429
            · rw [if_pos h3]; exact ih _ _
            · rw [if_neg h3]
              by_cases h4 : attempt < 3
              · rw [if_pos h4]; exact ih _ _
              · rw [if_neg h4]; right; exact ⟨_, rfl⟩
    | connError =>
      dsimp only
      by_cases h4 : attempt < 3
      · rw [if_pos h4]; exact ih _ _
      · rw [if_neg h4]; right; exact ⟨_, rfl⟩
    | timeout =>
      dsimp only
      by_cases h4 : attempt < 3
      · rw [if_pos h4]; exact ih _ _
      · rw [if_neg h4]; right; exact ⟨_, rfl⟩
    | otherError msg => right; exact ⟨_, rfl⟩

/-- C3 counterexample: a target whose three attempts are all rate-limited
(HTTP 429) exhausts the attempt ceiling and fails - no body is returned -
yet the failure ledger receives no entry at all, not exactly one. -/
theorem spec_C3_cex :
    (download (fun _ => Attempt.response 429 true []) (chars ("https://x.test/a")) []).1 = none ∧
    (download (fun _ => Attempt.response 429 true []) (chars ("https://x.test/a")) []).2 = [] := by
  constructor
  · rfl
  · rfl

/-- C3 (amended): per _download call the failure ledger grows by at most
one entry, keyed by the target URL; a 404, three server-error responses,
three connection errors, three timeouts, or an immediate other transport
error each produce exactly one entry with the corresponding reason; three
rate-limited responses exhaust the ceiling and terminate with NO ledger
entry. -/
theorem spec_C3 (t : Nat → Attempt) (url : Chars) :
    ((download t url []).2.length ≤ 1 ∧ ∀ e ∈ (download t url []).2, e.1 = url) ∧
    (∀ b, t 1 = Attempt.response 404 true b →
      download t url [] = (none, [(url, httpReason 404)])) ∧
    (∀ status b₁ b₂ b₃, 400 ≤ status → status ≠ 404 → status ≠ 429 →
      t 1 = Attempt.response status true b₁ → t 2 = Attempt.response status true b₂ →
      t 3 = Attempt.response status true b₃ →
      download t url [] = (none, [(url, httpReason status)])) ∧
    (t 1 = Attempt.connError → t 2 = Attempt.connError → t 3 = Attempt.connError →
      download t url [] = (none, [(url, chars ("Connection error"))])) ∧
    (t 1 = Attempt.timeout → t 2 = Attempt.timeout → t 3 = Attempt.timeout →
      download t url [] = (none, [(url, chars ("Timeout"))])) ∧
    (∀ m, t 1 = Attempt.otherError m → download t url [] = (none, [(url, m)])) ∧
    (∀ b₁ b₂ b₃, t 1 = Attempt.response 429 true b₁ → t 2 = Attempt.response 429 true b₂ →
      t 3 = Attempt.response 429 true b₃ → download t url [] = (none, [])) := by
  refine ⟨⟨?_, ?_⟩, ?_, ?_, ?_, ?_, ?_, ?_⟩
  · rcases downloadAux_ledger_shape t url 3 1 [] with h | ⟨r, h⟩
    · unfold download; rw [h]; simp
    · unfold download; rw [h]; simp
  · intro e he
    rcases downloadAux_ledger_shape t url 3 1 [] with h | ⟨r, h⟩
    · unfold download at he; rw [h] at he; simp at he
    · unfold download at he; rw [h] at he
      simp at he
      rw [he]
  · intro b h1
    unfold download downloadAux
    rw [h1]
    dsimp only
    rw [if_neg (by simp), if_neg (by omega), if_pos rfl]
    simp
  · intro status b₁ b₂ b₃ hge h404 h429 h1 h2 h3
    unfold download downloadAux
    rw [h1]
    dsimp only
    rw [if_neg (by simp), if_neg (by omega), if_neg h404, if_neg h429, if_pos (by omega)]
    unfold downloadAux
    rw [h2]
    dsimp only
    rw [if_neg (by simp), if_neg (by omega), if_neg h404, if_neg h429, if_pos (by omega)]
    unfold downloadAux
    rw [h3]
    dsimp only
    rw [if_neg (by simp), if_neg (by omega), if_neg h404, if_neg h429, if_neg (by omega)]
    simp
  · intro h1 h2 h3
    unfold download downloadAux
    rw [h1]
    dsimp only
    rw [if_pos (by omega)]
    unfold downloadAux
    rw [h2]
    dsimp only
    rw [if_pos (by omega)]
    unfold downloadAux
    rw [h3]
    dsimp only
    rw [if_neg (by omega)]
    simp
  · intro h1 h2 h3
    unfold download downloadAux
    rw [h1]
    dsimp only
    rw [if_pos (by omega)]
    unfold downloadAux
    rw [h2]
    dsimp only
    rw [if_pos (by omega)]
    unfold downloadAux
    rw [h3]
    dsimp only
    rw [if_neg (by omega)]
    simp
  · intro m h1
    unfold download downloadAux
    rw [h1]
    simp
  · intro b₁ b₂ b₃ h1 h2 h3
    unfold download downloadAux
    rw [h1]
    dsimp only
    rw [if_neg (by simp), if_neg (by omega), if_neg (by omega), if_pos rfl]
    unfold downloadAux
    rw [h2]
    dsimp only
    rw [if_neg (by simp), if_neg (by omega), if_neg (by omega), if_pos rfl]
    unfold downloadAux
    rw [h3]
    dsimp only
    rw [if_neg (by simp), if_neg (by omega), if_neg (by omega), if_pos rfl]
    rfl

/-- C3 witness: three consecutive HTTP 500 responses for one target exhaust
the retries and produce exactly one ledger entry with reason HTTP 500 and
no successful fetch. -/
theorem spec_C3_witness :
    download (fun _ => Attempt.response 500 true []) (chars ("https://x.test/a")) []
      = (none, [(chars ("https://x.test/a"), chars ("HTTP 500"))]) := by
  have h := (spec_C3 (fun _ => Attempt.response 500 true []) (chars ("https://x.test/a"))).2.2.1
    500 [] [] [] (by omega) (by omega) (by omega) rfl rfl rfl
  rw [h]
  decide

/-! Lemmas for the crawl frontier. -/

theorem queueLink_fields (cfg : CrawlConfig) (s : CrawlState) (p h : Chars) :
    (queueLink cfg s p h).fetched = s.fetched ∧ (queueLink cfg s p h).failed = s.failed ∧
    (queueLink cfg s p h).saved_count = s.saved_count ∧
    (queueLink cfg s p h).visited = s.visited := by
  simp only [queueLink, enqueue]
  split
  · exact ⟨rfl, rfl, rfl, rfl⟩
  · split
    · exact ⟨rfl, rfl, rfl, rfl⟩
    · split
      · exact ⟨rfl, rfl, rfl, rfl⟩
      · exact ⟨rfl, rfl, rfl, rfl⟩

theorem extract_fields (cfg : CrawlConfig) (hrefs : List Chars) (pageUrl : Chars) :
    ∀ (s : CrawlState),
      (extract_and_queue_links cfg s hrefs pageUrl).fetched = s.fetched ∧
      (extract_and_queue_links cfg s hrefs pageUrl).failed = s.failed ∧
      (extract_and_queue_links cfg s hrefs pageUrl).saved_count = s.saved_count ∧
      (extract_and_queue_links cfg s hrefs pageUrl).visited = s.visited := by
  induction hrefs with
  | nil => intro s; exact ⟨rfl, rfl, rfl, rfl⟩
  | cons h hs ih =>
    intro s
    have h1 := queueLink_fields cfg s pageUrl h
    have h2 := ih (queueLink cfg s pageUrl h)
    unfold extract_and_queue_links at h2 ⊢
    rw [List.foldl_cons]
    refine ⟨?_, ?_, ?_, ?_⟩
    · rw [h2.1, h1.1]
    · rw [h2.2.1, h1.2.1]
    · rw [h2.2.2.1, h1.2.2.1]
    · rw [h2.2.2.2, h1.2.2.2]

theorem process_pdf_resume (cfg : CrawlConfig) (w : World) (s : CrawlState) (url : Chars)
    (hres : cfg.resume = true)
    (hex : w.fileExists (joinPath [cfg.output_folder, pdf_url_to_filepath url]) = true) :
    process_pdf_url cfg w s url = { s with saved_count := s.saved_count + 1 } := by
  simp only [process_pdf_url]
  rw [if_pos (by rw [hres, hex]; rfl)]

theorem process_html_resume (cfg : CrawlConfig) (w : World) (s : CrawlState) (url : Chars)
    (hres : cfg.resume = true)
    (hex : w.fileExists (joinPath (cfg.output_folder :: url_to_filepath url
      cfg.input_address)) = true) :
    process_html_url cfg w s url =
      if cfg.recursive = true then
        extract_and_queue_links cfg { s with saved_count := s.saved_count + 1 }
          (w.links (w.fileContent (joinPath (cfg.output_folder :: url_to_filepath url
            cfg.input_address))) url) url
      else { s with saved_count := s.saved_count + 1 } := by
  simp only [process_html_url]
  rw [if_pos (by rw [hres, hex]; rfl)]

/-- C7 (amended): when the resume option is enabled and the mapped output
path refers to an existing non-empty file, processing the target counts it
as saved without invoking the transport and without touching the failure
ledger; for markup targets in recursive mode it runs link discovery on the
bytes read back from disk. -/
theorem spec_C7 (cfg : CrawlConfig) (w : World) (s : CrawlState) (url : Chars)
    (hres : cfg.resume = true) (hex : w.fileExists (mappedPath cfg url) = true) :
    (process_url cfg w s url).fetched = s.fetched ∧
    (process_url cfg w s url).failed = s.failed ∧
    (process_url cfg w s url).saved_count = s.saved_count + 1 ∧
    (is_pdf_url url = false → cfg.recursive = true →
      process_url cfg w s url = extract_and_queue_links cfg
        { s with saved_count := s.saved_count + 1 }
        (w.links (w.fileContent (mappedPath cfg url)) url) url) := by
  unfold process_url
  unfold mappedPath at hex ⊢
  by_cases hpdf : is_pdf_url url = true
  · rw [if_pos hpdf] at hex ⊢
    rw [process_pdf_resume cfg w s url hres hex]
    exact ⟨rfl, rfl, rfl, fun hc => absurd hpdf (by rw [hc]; simp)⟩
  · rw [if_neg hpdf] at hex ⊢
    rw [if_neg hpdf]
    rw [process_html_resume cfg w s url hres hex]
    by_cases hrec : cfg.recursive = true
    · rw [if_pos hrec]
      have hf := extract_fields cfg
        (w.links (w.fileContent (joinPath (cfg.output_folder :: url_to_filepath url
          cfg.input_address))) url) url { s with saved_count := s.saved_count + 1 }
      exact ⟨hf.1, hf.2.1, hf.2.2.1, fun _ _ => rfl⟩
    · rw [if_neg hrec]
      exact ⟨rfl, rfl, rfl, fun _ hc => absurd hc hrec⟩

set_option maxHeartbeats 1000000 in
/-- C7 counterexample: the claim as stated omits the resume option.  With
resume disabled, an existing non-empty file at the mapped path does not
stop the fetch: the transport is invoked for the target anyway. -/
theorem spec_C7_cex :
    (World.mk (fun _ _ => Attempt.response 200 true (chars ("<x>"))) (fun _ => true)
        (fun _ => []) (fun _ => true) (fun _ _ => [])).fileExists
      (mappedPath (CrawlConfig.mk (chars ("https://h/a")) (chars ("out")) true 0 false
        (chars ("html"))) (chars ("https://h/a/b"))) = true ∧
    (process_url (CrawlConfig.mk (chars ("https://h/a")) (chars ("out")) true 0 false
        (chars ("html")))
      (World.mk (fun _ _ => Attempt.response 200 true (chars ("<x>"))) (fun _ => true)
        (fun _ => []) (fun _ => true) (fun _ _ => []))
      initState (chars ("https://h/a/b"))).fetched = [chars ("https://h/a/b")] := by
  constructor
  · rfl
  · decide

set_option maxHeartbeats 1000000 in
/-- C7 witness: with resume enabled and the file present, the target counts
as saved and the transport is never invoked. -/
theorem spec_C7_witness :
    (process_url (CrawlConfig.mk (chars ("https://h/a")) (chars ("out")) false 0 true
        (chars ("html")))
      (World.mk (fun _ _ => Attempt.response 200 true (chars ("<x>"))) (fun _ => true)
        (fun _ => []) (fun _ => true) (fun _ _ => []))
      initState (chars ("https://h/a/b"))).fetched = initState.fetched ∧
    (process_url (CrawlConfig.mk (chars ("https://h/a")) (chars ("out")) false 0 true
        (chars ("html")))
      (World.mk (fun _ _ => Attempt.response 200 true (chars ("<x>"))) (fun _ => true)
        (fun _ => []) (fun _ => true) (fun _ _ => []))
      initState (chars ("https://h/a/b"))).saved_count = initState.saved_count + 1 := by
  have h := spec_C7 (CrawlConfig.mk (chars ("https://h/a")) (chars ("out")) false 0 true
      (chars ("html")))
    (World.mk (fun _ _ => Attempt.response 200 true (chars ("<x>"))) (fun _ => true)
      (fun _ => []) (fun _ => true) (fun _ _ => []))
    initState (chars ("https://h/a/b")) rfl rfl
  exact ⟨h.1, h.2.2.1⟩

theorem queueLink_inv (cfg : CrawlConfig) (s : CrawlState) (p h : Chars)
    (h1 : s.history.Nodup) (h2 : ∀ u, u ∈ s.queued ↔ u ∈ s.history) :
    (queueLink cfg s p h).history.Nodup ∧
      ∀ u, u ∈ (queueLink cfg s p h).queued ↔ u ∈ (queueLink cfg s p h).history := by
  simp only [queueLink, enqueue]
  split
  · exact ⟨h1, h2⟩
  · split
    · exact ⟨h1, h2⟩
    · rename_i hmem
      split
      · exact ⟨h1, h2⟩
      · constructor
        · rw [List.nodup_append]
          refine ⟨h1, by simp, ?_⟩
          simp only [List.disjoint_singleton]
          intro hc
          exact hmem ((h2 _).mpr hc)
        · intro u
          rw [List.mem_append, List.mem_append, h2 u]

theorem extract_inv (cfg : CrawlConfig) (hrefs : List Chars) (pageUrl : Chars) :
    ∀ (s : CrawlState), s.history.Nodup → (∀ u, u ∈ s.queued ↔ u ∈ s.history) →
      (extract_and_queue_links cfg s hrefs pageUrl).history.Nodup ∧
      ∀ u, u ∈ (extract_and_queue_links cfg s hrefs pageUrl).queued ↔
        u ∈ (extract_and_queue_links cfg s hrefs pageUrl).history := by
  induction hrefs with
  | nil => intro s h1 h2; exact ⟨h1, h2⟩
  | cons h hs ih =>
    intro s h1 h2
    have hq := queueLink_inv cfg s pageUrl h h1 h2
    have := ih (queueLink cfg s pageUrl h) hq.1 hq.2
    unfold extract_and_queue_links at this ⊢
    rw [List.foldl_cons]
    exact this

theorem process_pdf_qh (cfg : CrawlConfig) (w : World) (s : CrawlState) (url : Chars) :
    (process_pdf_url cfg w s url).queued = s.queued ∧
      (process_pdf_url cfg w s url).history = s.history := by
  simp only [process_pdf_url]
  split
  · exact ⟨rfl, rfl⟩
  · split
    · exact ⟨rfl, rfl⟩
    · split
      · exact ⟨rfl, rfl⟩
      · exact ⟨rfl, rfl⟩

theorem process_html_inv (cfg : CrawlConfig) (w : World) (s : CrawlState) (url : Chars)
    (h1 : s.history.Nodup) (h2 : ∀ u, u ∈ s.queued ↔ u ∈ s.history) :
    (process_html_url cfg w s url).history.Nodup ∧
      ∀ u, u ∈ (process_html_url cfg w s url).queued ↔
        u ∈ (process_html_url cfg w s url).history := by
  simp only [process_html_url]
  split
  · split
    · exact extract_inv cfg _ _ _ h1 h2
    · exact ⟨h1, h2⟩
  · split
    · exact ⟨h1, h2⟩
    · split
      · split
        · exact extract_inv cfg _ _ _ h1 h2
        · exact ⟨h1, h2⟩
      · exact ⟨h1, h2⟩

theorem process_url_inv (cfg : CrawlConfig) (w : World) (s : CrawlState) (url : Chars)
    (h1 : s.history.Nodup) (h2 : ∀ u, u ∈ s.queued ↔ u ∈ s.history) :
    (process_url cfg w s url).history.Nodup ∧
      ∀ u, u ∈ (process_url cfg w s url).queued ↔ u ∈ (process_url cfg w s url).history := by
  unfold process_url
  split
  · have hq := process_pdf_qh cfg w s url
    rw [hq.1, hq.2]
    exact ⟨h1, h2⟩
  · exact process_html_inv cfg w s url h1 h2

theorem crawlLoop_inv (cfg : CrawlConfig) (w : World) :
    ∀ (fuel : Nat) (s : CrawlState), s.history.Nodup →
      (∀ u, u ∈ s.queued ↔ u ∈ s.history) →
      (crawlLoop cfg w fuel s).history.Nodup ∧
      ∀ u, u ∈ (crawlLoop cfg w fuel s).queued ↔ u ∈ (crawlLoop cfg w fuel s).history := by
  intro fuel
  induction fuel with
  | zero => intro s h1 h2; exact ⟨h1, h2⟩
  | succ n ih =>
    intro s h1 h2
    unfold crawlLoop
    split
    · exact ⟨h1, h2⟩
    · split
      · exact ⟨h1, h2⟩
      · dsimp only
        split
        · exact ih _ h1 h2
        · refine ih _ ?_ ?_
          · exact (process_url_inv cfg w _ _ (by exact h1) (by exact h2)).1
          · exact (process_url_inv cfg w _ _ (by exact h1) (by exact h2)).2

theorem nodup_count_le_one {l : List Chars} (h : l.Nodup) (u : Chars) :
    l.count u ≤ 1 := by
  induction l with
  | nil => simp
  | cons b t ih =>
    rw [List.count_cons]
    have hb := List.nodup_cons.mp h
    by_cases hbu : b = u
    · subst hbu
      have hz : t.count b = 0 := List.count_eq_zero.mpr hb.1
      simp [hz]
    · have hne : (b == u) = false := by
        simp [hbu]
      simp [hne]
      exact ih hb.2

theorem nodup_mem_count_eq_one {l : List Chars} (h : l.Nodup) {u : Chars} (hm : u ∈ l) :
    l.count u = 1 := by
  have h1 := nodup_count_le_one h u
  have h2 : 0 < l.count u := List.count_pos_iff.mpr hm
  omega

/-- C4: over a whole crawl run every URL is appended to the frontier queue
at most once (the ghost history records every append), and a URL that made
it into the ever-enqueued set was appended exactly once - in particular a
URL discovered from two different pages is enqueued exactly once. -/
theorem spec_C4 (cfg : CrawlConfig) (w : World) (fuel : Nat) (u : Chars) :
    (crawl cfg w fuel).history.count u ≤ 1 ∧
      (u ∈ (crawl cfg w fuel).queued → (crawl cfg w fuel).history.count u = 1) := by
  have hinit1 : (enqueue initState (rstripSlash cfg.input_address)).history.Nodup := by
    simp [enqueue, initState]
  have hinit2 : ∀ v, v ∈ (enqueue initState (rstripSlash cfg.input_address)).queued ↔
      v ∈ (enqueue initState (rstripSlash cfg.input_address)).history := by
    intro v
    simp [enqueue, initState]
  have h := crawlLoop_inv cfg w fuel _ hinit1 hinit2
  constructor
  · exact nodup_count_le_one h.1 u
  · intro hm
    exact nodup_mem_count_eq_one h.1 ((h.2 u).mp hm)

set_option maxHeartbeats 1000000 in
/-- C4 witness: a one-step run with a concrete transport enqueues the seed
exactly once. -/
theorem spec_C4_witness :
    (crawl (CrawlConfig.mk (chars ("https://h/a")) (chars ("out")) true 0 false (chars ("html")))
      (World.mk (fun _ _ => Attempt.otherError []) (fun _ => false) (fun _ => [])
        (fun _ => true) (fun _ _ => [])) 1).history.count (chars ("https://h/a")) = 1 := by
  exact (spec_C4 (CrawlConfig.mk (chars ("https://h/a")) (chars ("out")) true 0 false
      (chars ("html")))
    (World.mk (fun _ _ => Attempt.otherError []) (fun _ => false) (fun _ => [])
      (fun _ => true) (fun _ _ => [])) 1 (chars ("https://h/a"))).2 (by decide)

/-! Lemmas about breakAt, pySplit and pyJoin. -/

theorem breakAt_not_mem {sep : Char} : ∀ {s : Chars}, sep ∉ s → breakAt sep s = none := by
  intro s
  induction s with
  | nil => intro _; rfl
  | cons c t ih =>
    intro h
    unfold breakAt
    rw [if_neg (by intro hc; exact h (by simp [hc]))]
    rw [ih (fun hc => h (by simp [hc]))]
    rfl

theorem breakAt_append {sep : Char} : ∀ {s : Chars} (t : Chars), sep ∉ s →
    breakAt sep (s ++ sep :: t) = some (s, t) := by
  intro s
  induction s with
  | nil => intro t _; simp [breakAt]
  | cons c s' ih =>
    intro t h
    rw [List.cons_append]
    unfold breakAt
    rw [if_neg (by intro hc; exact h (by simp [hc]))]
    rw [ih t (fun hc => h (by simp [hc]))]
    rfl

theorem takeWhile_append_all {p : Char → Bool} : ∀ {s : Chars} (t : Chars),
    (∀ c ∈ s, p c = true) → (s ++ t).takeWhile p = s ++ t.takeWhile p := by
  intro s
  induction s with
  | nil => intro t _; simp
  | cons c s' ih =>
    intro t h
    rw [List.cons_append, List.takeWhile_cons, if_pos (h c (by simp))]
    rw [ih t (fun d hd => h d (by simp [hd]))]
    rfl

theorem dropWhile_append_all {p : Char → Bool} : ∀ {s : Chars} (t : Chars),
    (∀ c ∈ s, p c = true) → (s ++ t).dropWhile p = t.dropWhile p := by
  intro s
  induction s with
  | nil => intro t _; simp
  | cons c s' ih =>
    intro t h
    rw [List.cons_append, List.dropWhile_cons, if_pos (h c (by simp))]
    exact ih t (fun d hd => h d (by simp [hd]))

theorem takeWhile_cons_false {p : Char → Bool} {c : Char} (t : Chars) (h : p c = false) :
    (c :: t).takeWhile p = [] := by
  rw [List.takeWhile_cons, if_neg (by simp [h])]

theorem dropWhile_cons_false {p : Char → Bool} {c : Char} (t : Chars) (h : p c = false) :
    (c :: t).dropWhile p = c :: t := by
  rw [List.dropWhile_cons, if_neg (by simp [h])]

theorem pySplit_ne_nil (sep : Char) : ∀ (s : Chars), pySplit sep s ≠ [] := by
  intro s
  induction s with
  | nil => simp [pySplit]
  | cons c t ih =>
    unfold pySplit
    rcases h : pySplit sep t with _ | ⟨a, b⟩
    · exact absurd h ih
    · show (if c = sep then [] :: a :: b else (c :: a) :: b) ≠ []
      split <;> simp

theorem pySplit_cons_sep (sep : Char) (t : Chars) :
    pySplit sep (sep :: t) = [] :: pySplit sep t := by
  rcases h : pySplit sep t with _ | ⟨a, b⟩
  · exact absurd h (pySplit_ne_nil sep t)
  · conv_lhs => unfold pySplit
    rw [h]
    show (if sep = sep then [] :: a :: b else (sep :: a) :: b) = [] :: a :: b
    rw [if_pos rfl]

theorem pySplit_cons_not_sep {sep c : Char} (hc : c ≠ sep) {t : Chars} {a : Chars}
    {b : List Chars} (h : pySplit sep t = a :: b) :
    pySplit sep (c :: t) = (c :: a) :: b := by
  conv_lhs => unfold pySplit
  rw [h]
  show (if c = sep then [] :: a :: b else (c :: a) :: b) = (c :: a) :: b
  rw [if_neg hc]

theorem pySplit_no_sep {sep : Char} : ∀ {s : Chars}, sep ∉ s → pySplit sep s = [s] := by
  intro s
  induction s with
  | nil => intro _; rfl
  | cons c t ih =>
    intro h
    have hc : c ≠ sep := fun hx => h (by simp [hx])
    rw [pySplit_cons_not_sep hc (ih (fun hx => h (by simp [hx])))]

theorem pySplit_append_sep {sep : Char} : ∀ {s : Chars} (t : Chars), sep ∉ s →
    pySplit sep (s ++ sep :: t) = s :: pySplit sep t := by
  intro s
  induction s with
  | nil =>
    intro t _
    rw [List.nil_append]
    exact pySplit_cons_sep sep t
  | cons c s' ih =>
    intro t h
    have hc : c ≠ sep := fun hx => h (by simp [hx])
    rw [List.cons_append]
    rw [pySplit_cons_not_sep hc (ih t (fun hx => h (by simp [hx])))]

theorem pySplit_pyJoin (sep : Char) : ∀ (segs : List Chars), segs ≠ [] →
    (∀ s ∈ segs, sep ∉ s) → pySplit sep (pyJoin sep segs) = segs := by
  intro segs
  induction segs with
  | nil => intro h _; exact absurd rfl h
  | cons s rest ih =>
    intro _ h
    cases rest with
    | nil => exact pySplit_no_sep (h s (by simp))
    | cons s2 rest2 =>
      show pySplit sep (s ++ sep :: pyJoin sep (s2 :: rest2)) = _
      rw [pySplit_append_sep _ (h s (by simp))]
      rw [ih (by simp) (fun x hx => h x (by simp [hx]))]

theorem pyJoin_pySplit (sep : Char) : ∀ (s : Chars), pyJoin sep (pySplit sep s) = s := by
  intro s
  induction s with
  | nil => rfl
  | cons c t ih =>
    by_cases hc : c = sep
    · rw [hc]
      rw [pySplit_cons_sep]
      rcases h : pySplit sep t with _ | ⟨a, b⟩
      · exact absurd h (pySplit_ne_nil sep t)
      · rw [h] at ih
        show [] ++ sep :: pyJoin sep (a :: b) = sep :: t
        rw [show pyJoin sep (a :: b) = t from ih]
        rfl
    · rcases h : pySplit sep t with _ | ⟨a, b⟩
      · exact absurd h (pySplit_ne_nil sep t)
      · rw [pySplit_cons_not_sep hc h]
        rw [h] at ih
        cases b with
        | nil =>
          show c :: a = c :: t
          exact congrArg _ ih
        | cons b1 b2 =>
          show (c :: a) ++ sep :: pyJoin sep (b1 :: b2) = c :: t
          rw [List.cons_append]
          rw [show a ++ sep :: pyJoin sep (b1 :: b2) = pyJoin sep (a :: b1 :: b2) from rfl]
          rw [ih]

theorem mem_pyJoin {sep : Char} : ∀ {segs : List Chars} {c : Char},
    c ∈ pyJoin sep segs → c = sep ∨ ∃ s ∈ segs, c ∈ s := by
  intro segs
  induction segs with
  | nil => intro c h; simp [pyJoin] at h
  | cons s rest ih =>
    intro c h
    cases rest with
    | nil => exact Or.inr ⟨s, by simp, h⟩
    | cons s2 r2 =>
      rw [show pyJoin sep (s :: s2 :: r2) = s ++ sep :: pyJoin sep (s2 :: r2) from rfl] at h
      rcases List.mem_append.mp h with h1 | h1
      · exact Or.inr ⟨s, by simp, h1⟩
      · rcases List.mem_cons.mp h1 with h2 | h2
        · exact Or.inl h2
        · rcases ih h2 with h3 | ⟨x, hx, hcx⟩
          · exact Or.inl h3
          · exact Or.inr ⟨x, by simp [hx], hcx⟩

theorem mem_of_mem_pySplit {sep : Char} : ∀ {s : Chars} {seg : Chars},
    seg ∈ pySplit sep s → ∀ c ∈ seg, c ∈ s := by
  intro s
  induction s with
  | nil =>
    intro seg h c hc
    simp [pySplit] at h
    rw [h] at hc
    simp at hc
  | cons a t ih =>
    intro seg h c hc
    by_cases ha : a = sep
    · subst ha
      rw [pySplit_cons_sep] at h
      rcases List.mem_cons.mp h with h3 | h3
      · rw [h3] at hc; simp at hc
      · exact List.mem_cons_of_mem a (ih h3 c hc)
    · rcases h2 : pySplit sep t with _ | ⟨x, xs⟩
      · exact absurd h2 (pySplit_ne_nil sep t)
      · rw [pySplit_cons_not_sep ha h2] at h
        rcases List.mem_cons.mp h with h3 | h3
        · rw [h3] at hc
          rcases List.mem_cons.mp hc with h4 | h4
          · simp [h4]
          · exact List.mem_cons_of_mem a (ih (h2 ▸ List.mem_cons_self x xs) c h4)
        · exact List.mem_cons_of_mem a (ih (h2 ▸ List.mem_cons_of_mem x h3) c hc)

theorem pySplit_sep_not_mem {sep : Char} : ∀ {s : Chars} {seg : Chars},
    seg ∈ pySplit sep s → sep ∉ seg := by
  intro s
  induction s with
  | nil =>
    intro seg h
    simp [pySplit] at h
    rw [h]
    simp
  | cons a t ih =>
    intro seg h
    by_cases ha : a = sep
    · subst ha
      rw [pySplit_cons_sep] at h
      rcases List.mem_cons.mp h with h3 | h3
      · rw [h3]; simp
      · exact ih h3
    · rcases h2 : pySplit sep t with _ | ⟨x, xs⟩
      · exact absurd h2 (pySplit_ne_nil sep t)
      · rw [pySplit_cons_not_sep ha h2] at h
        rcases List.mem_cons.mp h with h3 | h3
        · rw [h3]
          intro hc
          rcases List.mem_cons.mp hc with h4 | h4
          · exact ha h4.symm
          · exact ih (h2 ▸ List.mem_cons_self x xs) h4
        · exact ih (h2 ▸ List.mem_cons_of_mem x h3)

/-! Parsing lemmas for well-formed URLs. -/

theorem lowerStr_eq_self {s : Chars} (h : ∀ c ∈ s, c.toLower = c) : lowerStr s = s := by
  unfold lowerStr
  induction s with
  | nil => rfl
  | cons c t ih =>
    rw [List.map_cons, h c (by simp), ih (fun d hd => h d (by simp [hd]))]

theorem chars_sep : chars ("://") = ':' :: '/' :: '/' :: [] := rfl

theorem mkUrl_eq (sch host p : Chars) :
    mkUrl sch host p = sch ++ ':' :: ('/' :: '/' :: (host ++ p)) := by
  show sch ++ chars ("://") ++ host ++ p = _
  rw [chars_sep]
  simp [List.append_assoc]

theorem wfPath_head {p : Chars} (hp : wfPath p) : p = [] ∨ ∃ t, p = '/' :: t := by
  rcases hp.1 with h | h
  · exact Or.inl h
  · right
    obtain ⟨t, ht⟩ := List.isPrefixOf_iff_prefix.mp h
    exact ⟨t, by rw [← ht]; rfl⟩

theorem urlparse_mkUrl (sch host p : Chars) (hs : wfScheme sch) (hh : wfHost host)
    (hp : wfPath p) : urlparse (mkUrl sch host p) = ⟨sch, host, p, [], []⟩ := by
  have h1 : ':' ∉ sch := fun hc => absurd (hs.2 ':' hc).1 (by decide)
  have hcond : (!sch.isEmpty && sch.head?.any Char.isAlpha && sch.all validSchemeChar)
      = true := by
    rcases hsch : sch with _ | ⟨c0, st⟩
    · exact absurd hsch hs.1
    · have hc0 := hs.2 c0 (by rw [hsch]; simp)
      have hall : ∀ c ∈ sch, validSchemeChar c = true := by
        intro c hc
        have := hs.2 c hc
        simp [validSchemeChar, Char.isAlphanum, this.1]
      rw [← hsch]
      rw [hsch]
      simp only [List.isEmpty_cons, Bool.not_false, List.head?_cons, Option.any_some,
        Bool.true_and]
      rw [hc0.1]
      rw [Bool.true_and]
      rw [List.all_eq_true]
      intro c hc
      exact hall c (by rw [hsch]; exact hc)
  have hlower : lowerStr sch = sch := lowerStr_eq_self (fun c hc => (hs.2 c hc).2)
  have hpre : (chars ("//")).isPrefixOf ('/' :: '/' :: (host ++ p)) = true := by
    rw [List.isPrefixOf_iff_prefix]
    exact ⟨host ++ p, rfl⟩
  have hhostall : ∀ c ∈ host, (fun c => decide (¬(c = '/' ∨ c = '?' ∨ c = '#'))) c = true := by
    intro c hc
    have := hh.2 c hc
    simp only [decide_eq_true_eq]
    intro hor
    exact this (by tauto)
  have htw : (host ++ p).takeWhile (fun c => decide (¬(c = '/' ∨ c = '?' ∨ c = '#'))) = host := by
    rw [takeWhile_append_all _ hhostall]
    rcases wfPath_head hp with h | ⟨t, ht⟩
    · rw [h]; simp
    · rw [ht, takeWhile_cons_false _ (by simp)]
      simp
  have hdw : (host ++ p).dropWhile (fun c => decide (¬(c = '/' ∨ c = '?' ∨ c = '#'))) = p := by
    rw [dropWhile_append_all _ hhostall]
    rcases wfPath_head hp with h | ⟨t, ht⟩
    · rw [h]; simp
    · rw [ht, dropWhile_cons_false _ (by simp)]
  have hfrag : breakAt '#' p = none := breakAt_not_mem (fun hc => (hp.2 '#' hc) (by simp))
  have hquery : breakAt '?' p = none := breakAt_not_mem (fun hc => (hp.2 '?' hc) (by simp))
  simp only [urlparse, urlparseD]
  rw [mkUrl_eq, breakAt_append _ h1]
  dsimp only
  rw [if_pos hcond]
  dsimp only
  rw [hlower]
  rw [if_neg hs.1]
  rw [if_pos hpre]
  dsimp only
  rw [show ('/' :: '/' :: (host ++ p)).drop 2 = host ++ p from rfl]
  rw [htw, hdw, hfrag]
  dsimp only
  rw [hquery]

theorem urlparse_raw (sch host p : Chars) (hs : wfScheme sch) (hh : wfHost host)
    (hp : wfPath p) :
    urlparse (sch ++ ':' :: ('/' :: '/' :: (host ++ p))) = ⟨sch, host, p, [], []⟩ := by
  rw [← mkUrl_eq]
  exact urlparse_mkUrl sch host p hs hh hp

theorem urlparse_rawq (sch host p q : Chars) (hs : wfScheme sch) (hh : wfHost host)
    (hphead : p = [] ∨ ∃ t, p = '/' :: t) (hp : ∀ c ∈ p, ¬(c = '?' ∨ c = '#'))
    (hq : '#' ∉ q) :
    urlparse (sch ++ ':' :: ('/' :: '/' :: (host ++ (p ++ '?' :: q)))) =
      ⟨sch, host, p, q, []⟩ := by
  have h1 : ':' ∉ sch := fun hc => absurd (hs.2 ':' hc).1 (by decide)
  have hcond : (!sch.isEmpty && sch.head?.any Char.isAlpha && sch.all validSchemeChar)
      = true := by
    rcases hsch : sch with _ | ⟨c0, st⟩
    · exact absurd hsch hs.1
    · have hc0 := hs.2 c0 (by rw [hsch]; simp)
      rw [← hsch]
      rw [hsch]
      simp only [List.isEmpty_cons, Bool.not_false, List.head?_cons, Option.any_some,
        Bool.true_and]
      rw [hc0.1]
      rw [Bool.true_and]
      rw [List.all_eq_true]
      intro c hc
      have := hs.2 c (by rw [hsch]; exact hc)
      simp [validSchemeChar, Char.isAlphanum, this.1]
  have hlower : lowerStr sch = sch := lowerStr_eq_self (fun c hc => (hs.2 c hc).2)
  have hpre : (chars ("//")).isPrefixOf ('/' :: '/' :: (host ++ (p ++ '?' :: q))) = true := by
    rw [List.isPrefixOf_iff_prefix]
    exact ⟨host ++ (p ++ '?' :: q), rfl⟩
  have hhostall : ∀ c ∈ host, (fun c => decide (¬(c = '/' ∨ c = '?' ∨ c = '#'))) c = true := by
    intro c hc
    have := hh.2 c hc
    simp only [decide_eq_true_eq]
    intro hor
    exact this (by tauto)
  have htw : (host ++ (p ++ '?' :: q)).takeWhile
      (fun c => decide (¬(c = '/' ∨ c = '?' ∨ c = '#'))) = host := by
    rw [takeWhile_append_all _ hhostall]
    rcases hphead with h | ⟨t, ht⟩
    · rw [h, List.nil_append, takeWhile_cons_false _ (by simp)]
      simp
    · rw [ht, List.cons_append, takeWhile_cons_false _ (by simp)]
      simp
  have hdw : (host ++ (p ++ '?' :: q)).dropWhile
      (fun c => decide (¬(c = '/' ∨ c = '?' ∨ c = '#'))) = p ++ '?' :: q := by
    rw [dropWhile_append_all _ hhostall]
    rcases hphead with h | ⟨t, ht⟩
    · rw [h, List.nil_append, dropWhile_cons_false _ (by simp)]
    · rw [ht, List.cons_append, dropWhile_cons_false _ (by simp)]
  have hfrag : breakAt '#' (p ++ '?' :: q) = none := by
    apply breakAt_not_mem
    intro hc
    rcases List.mem_append.mp hc with hm | hm
    · exact (hp '#' hm) (by simp)
    · rcases List.mem_cons.mp hm with hm2 | hm2
      · exact absurd hm2 (by decide)
      · exact hq hm2
  have hquery : breakAt '?' (p ++ '?' :: q) = some (p, q) :=
    breakAt_append _ (fun hc => (hp '?' hc) (by simp))
  simp only [urlparse, urlparseD]
  rw [breakAt_append _ h1]
  dsimp only
  rw [if_pos hcond]
  dsimp only
  rw [hlower]
  rw [if_neg hs.1]
  rw [if_pos hpre]
  dsimp only
  rw [show ('/' :: '/' :: (host ++ (p ++ '?' :: q))).drop 2 = host ++ (p ++ '?' :: q) from rfl]
  rw [htw, hdw, hfrag]
  dsimp only
  rw [hquery]

theorem urlunparse_eval (sch host p q : Chars) (hs : sch ≠ []) (hh : host ≠ [])
    (hpfx : ∃ t, p = '/' :: t) :
    urlunparse sch host p q [] =
      sch ++ ':' :: ('/' :: '/' :: (host ++ (if q = [] then p else p ++ '?' :: q))) := by
  obtain ⟨t, ht⟩ := hpfx
  have hlead : ¬(p ≠ [] ∧ ¬((chars ("/")).isPrefixOf p = true)) := by
    intro hc
    apply hc.2
    rw [ht, List.isPrefixOf_iff_prefix]
    exact ⟨t, rfl⟩
  simp only [urlunparse]
  rw [if_neg (show ¬(([] : Chars) ≠ []) by simp)]
  rw [List.nil_append]
  by_cases hq : q = []
  · rw [if_neg (show ¬(q ≠ []) by simp [hq])]
    rw [if_pos hs]
    rw [if_pos (Or.inl hh)]
    rw [if_neg hlead]
    rw [if_pos hq]
    simp [chars, List.append_assoc]
  · rw [if_pos (show q ≠ [] from hq)]
    rw [if_pos hs]
    rw [if_pos (Or.inl hh)]
    rw [if_neg hlead]
    rw [if_neg hq]
    simp [chars, List.append_assoc]

theorem pyRstrip_eq_self_getLast {p : Char → Bool} {s : Chars}
    (h : ∀ c, s.getLast? = some c → p c = false) : pyRstrip p s = s := by
  unfold pyRstrip dropRightWhile
  rcases hrev : s.reverse with _ | ⟨c, t⟩
  · have : s = [] := by
      have := congrArg List.reverse hrev
      simpa using this
    rw [this]
    simp
  · have hlast : s.getLast? = some c := by
      rw [← List.head?_reverse, hrev]
      rfl
    rw [dropWhile_cons_false _ (h c hlast), ← hrev]
    simp

/-- C2 counterexample: is_in_scope never compares the candidate scheme with
the scope root scheme; an http candidate is accepted against an https root,
so 'returns true exactly when the schemes are identical' is false. -/
theorem spec_C2_cex :
    is_in_scope (chars ("http://h/a")) (chars ("https://h/a")) = true ∧
      (urlparse (chars ("http://h/a"))).scheme ≠ (urlparse (chars ("https://h/a"))).scheme := by
  constructor
  · decide
  · decide

/-- C2 (amended): isInScope(candidate, root) is true exactly when the hosts
are identical, the CANDIDATE scheme is http or https (the root scheme is
not compared), and the root path (trailing slashes stripped) is a
segment-aligned prefix of the candidate path; in particular a root
extended by /x is in scope and a root extended by -extra is not. -/
theorem spec_C2 :
    (∀ (csch bsch chost bhost up bp : Chars), wfScheme csch → wfScheme bsch →
      wfHost chost → wfHost bhost → wfPath up → wfPath bp →
      (is_in_scope (mkUrl csch chost up) (mkUrl bsch bhost bp) = true ↔
        (chost = bhost ∧ (csch = chars ("http") ∨ csch = chars ("https")) ∧
          segAlignedPrefixOf (rstripSlash bp) up))) ∧
    (∀ (sch host bp : Chars), (sch = chars ("http") ∨ sch = chars ("https")) →
      wfHost host → wfPath bp → bp ≠ [] → (∀ c, bp.getLast? = some c → c ≠ '/') →
      is_in_scope (mkUrl sch host (bp ++ chars ("/x"))) (mkUrl sch host bp) = true ∧
      is_in_scope (mkUrl sch host (bp ++ chars ("-extra"))) (mkUrl sch host bp) = false) := by
  have hchar : ∀ (csch bsch chost bhost up bp : Chars), wfScheme csch → wfScheme bsch →
      wfHost chost → wfHost bhost → wfPath up → wfPath bp →
      (is_in_scope (mkUrl csch chost up) (mkUrl bsch bhost bp) = true ↔
        (chost = bhost ∧ (csch = chars ("http") ∨ csch = chars ("https")) ∧
          segAlignedPrefixOf (rstripSlash bp) up)) := by
    intro csch bsch chost bhost up bp hcs hbs hch hbh hup hbp
    have hne : (mkUrl csch chost up).isEmpty = false := by
      rcases hc : csch with _ | ⟨c0, ct⟩
      · exact absurd hc hcs.1
      · simp [mkUrl, hc]
    simp only [is_in_scope]
    rw [if_neg (show ¬((mkUrl csch chost up).isEmpty = true) by rw [hne]; simp)]
    rw [urlparse_mkUrl csch chost up hcs hch hup,
      urlparse_mkUrl bsch bhost bp hbs hbh hbp]
    dsimp only
    by_cases hhost : chost = bhost
    · rw [if_neg (show ¬(chost ≠ bhost) by simp [hhost])]
      by_cases hsch : csch = chars ("http") ∨ csch = chars ("https")
      · rw [if_neg (not_not_intro hsch)]
        by_cases hpre : (rstripSlash bp).isPrefixOf up = true
        · rw [if_neg (show ¬((!(rstripSlash bp).isPrefixOf up) = true) by simp [hpre])]
          have hprefix : rstripSlash bp <+: up := List.isPrefixOf_iff_prefix.mp hpre
          by_cases hC : (!(up.drop (rstripSlash bp).length).isEmpty
              && !((chars ("/")).isPrefixOf (up.drop (rstripSlash bp).length))
              && !(up.drop (rstripSlash bp).length).isEmpty) = true
          · rw [if_pos hC]
            simp only [Bool.and_eq_true, Bool.not_eq_true'] at hC
            constructor
            · intro hfalse
              simp at hfalse
            · rintro ⟨-, -, hseg⟩
              rcases hseg.2 with hlen | hslash
              · have : up.drop (rstripSlash bp).length = [] := by
                  apply List.drop_eq_nil_of_le
                  omega
                rw [this] at hC
                simp at hC
              · rw [hslash] at hC
                simp at hC
          · rw [if_neg hC]
            simp only [Bool.and_eq_true, Bool.not_eq_true', not_and_or] at hC
            constructor
            · intro _
              refine ⟨hhost, hsch, hprefix, ?_⟩
              rcases hC with h | h
              · rcases h with h | h
                · left
                  have h2 : up.length ≤ (rstripSlash bp).length := by simpa using h
                  have := hprefix.length_le
                  omega
                · right
                  simpa using h
              · left
                have h2 : up.length ≤ (rstripSlash bp).length := by simpa using h
                have := hprefix.length_le
                omega
            · intro _
              rfl
        · rw [if_pos (show (!(rstripSlash bp).isPrefixOf up) = true by simp [hpre])]
          constructor
          · intro hfalse
            simp at hfalse
          · rintro ⟨-, -, hseg⟩
            exact absurd (List.isPrefixOf_iff_prefix.mpr hseg.1) hpre
      · rw [if_pos (show ¬(csch = chars ("http") ∨ csch = chars ("https")) from hsch)]
        constructor
        · intro hfalse
          simp at hfalse
        · rintro ⟨-, hs2, -⟩
          exact absurd hs2 hsch
    · rw [if_pos (show chost ≠ bhost from hhost)]
      constructor
      · intro hfalse
        simp at hfalse
      · rintro ⟨hh2, -, -⟩
        exact absurd hh2 hhost
  refine ⟨hchar, ?_⟩
  intro sch host bp hsch hh hbp hbpne hlast
  have hws : wfScheme sch := by
    rcases hsch with h | h <;> rw [h] <;> exact ⟨by decide, by decide⟩
  have hbphead : ∃ t, bp = '/' :: t := by
    rcases wfPath_head hbp with h | h
    · exact absurd h hbpne
    · exact h
  have hrs : rstripSlash bp = bp := by
    apply pyRstrip_eq_self_getLast
    intro c hc
    have := hlast c hc
    simp [this]
  constructor
  · have hwp : wfPath (bp ++ chars ("/x")) := by
      constructor
      · right
        obtain ⟨t, ht⟩ := hbphead
        rw [ht, List.isPrefixOf_iff_prefix]
        exact ⟨t ++ chars ("/x"), rfl⟩
      · intro c hc
        rcases List.mem_append.mp hc with hm | hm
        · exact hbp.2 c hm
        · simp [chars] at hm
          rcases hm with h | h <;> subst h <;> decide
    rw [hchar sch sch host host (bp ++ chars ("/x")) bp hws hws hh hh hwp hbp]
    refine ⟨rfl, hsch, ?_⟩
    rw [hrs]
    refine ⟨⟨chars ("/x"), rfl⟩, Or.inr ?_⟩
    rw [List.drop_left]
    rw [List.isPrefixOf_iff_prefix]
    exact ⟨chars ("x"), rfl⟩
  · have hwp : wfPath (bp ++ chars ("-extra")) := by
      constructor
      · right
        obtain ⟨t, ht⟩ := hbphead
        rw [ht, List.isPrefixOf_iff_prefix]
        exact ⟨t ++ chars ("-extra"), rfl⟩
      · intro c hc
        rcases List.mem_append.mp hc with hm | hm
        · exact hbp.2 c hm
        · simp [chars] at hm
          rcases hm with h | h | h | h | h | h <;> subst h <;> decide
    by_cases hb : is_in_scope (mkUrl sch host (bp ++ chars ("-extra"))) (mkUrl sch host bp)
        = true
    · exfalso
      have h2 := (hchar sch sch host host (bp ++ chars ("-extra")) bp hws hws hh hh hwp
        hbp).mp hb
      rcases h2.2.2.2 with hlen | hslash
      · rw [hrs] at hlen
        simp [chars] at hlen
      · rw [hrs, List.drop_left] at hslash
        rw [List.isPrefixOf_iff_prefix] at hslash
        obtain ⟨t, ht⟩ := hslash
        have := congrArg List.head? ht
        simp [chars] at this
    · simpa using hb

/-- Witness for spec_C2 at concrete inputs. -/
theorem spec_C2_witness :
    (is_in_scope (mkUrl (chars ("http")) (chars ("h")) (chars ("/a/b")))
        (mkUrl (chars ("https")) (chars ("h")) (chars ("/a"))) = true ↔
      (chars ("h") = chars ("h") ∧
        (chars ("http") = chars ("http") ∨ chars ("http") = chars ("https")) ∧
        segAlignedPrefixOf (rstripSlash (chars ("/a"))) (chars ("/a/b")))) ∧
    (is_in_scope (mkUrl (chars ("http")) (chars ("h")) (chars ("/a") ++ chars ("/x")))
        (mkUrl (chars ("http")) (chars ("h")) (chars ("/a"))) = true ∧
      is_in_scope (mkUrl (chars ("http")) (chars ("h")) (chars ("/a") ++ chars ("-extra")))
        (mkUrl (chars ("http")) (chars ("h")) (chars ("/a"))) = false) := by
  constructor
  · exact spec_C2.1 (chars ("http")) (chars ("https")) (chars ("h")) (chars ("h"))
      (chars ("/a/b")) (chars ("/a")) (by decide) (by decide) (by decide) (by decide)
      (by decide) (by decide)
  · exact spec_C2.2 (chars ("http")) (chars ("h")) (chars ("/a")) (Or.inl rfl)
      (by decide) (by decide) (by decide)
      (by intro c hc; simp [chars] at hc; subst hc; decide)

theorem unquote_cons_ne {c : Char} (h : c ≠ '%') (rest : Chars) :
    unquote (c :: rest) = c :: unquote rest := by
  rw [unquote.eq_def]
  split
  · simp_all
  · rename_i heq; simp at heq; exact absurd heq.1 h
  · rename_i heq; simp at heq; simp [heq.1, heq.2]

theorem unquote_one (a : Char) : unquote [a] = [a] := by
  rw [unquote.eq_def]
  split
  · simp_all
  · rename_i heq; simp at heq
  · rename_i heq; simp at heq; simp [heq.1, heq.2, unquote]

theorem unquote_two (a b : Char) : unquote [a, b] = a :: unquote [b] := by
  rw [unquote.eq_def]
  split
  · simp_all
  · rename_i heq; simp at heq
  · rename_i heq; simp at heq; simp [heq.1, heq.2]

theorem unquote_hex {a b : Char} (h : isHexDigit a ∧ isHexDigit b) (rest : Chars) :
    unquote ('%' :: a :: b :: rest) =
      Char.ofNat (16 * hexVal a + hexVal b) :: unquote rest := by
  rw [unquote.eq_def]
  split
  · simp_all
  · rename_i heq
    simp at heq
    obtain ⟨ha, hb, hr⟩ := heq
    subst ha; subst hb; subst hr
    rw [if_pos h]
  · rename_i hne heq
    simp at heq
    exact absurd heq.2.symm (hne a b rest heq.1.symm)

theorem unquote_not_hex {a b : Char} (h : ¬(isHexDigit a ∧ isHexDigit b)) (rest : Chars) :
    unquote ('%' :: a :: b :: rest) = '%' :: unquote (a :: b :: rest) := by
  rw [unquote.eq_def]
  split
  · simp_all
  · rename_i heq
    simp at heq
    obtain ⟨ha, hb, hr⟩ := heq
    subst ha; subst hb; subst hr
    rw [if_neg h]
  · rename_i hne heq
    simp at heq
    exact absurd heq.2.symm (hne a b rest heq.1.symm)

theorem unquote_append_slash (ys : Chars) : ∀ (xs : Chars),
    unquote (xs ++ '/' :: ys) = unquote xs ++ '/' :: unquote ys := by
  suffices h : ∀ n (xs : Chars), xs.length ≤ n →
      unquote (xs ++ '/' :: ys) = unquote xs ++ '/' :: unquote ys by
    exact fun xs => h xs.length xs le_rfl
  intro n
  induction n with
  | zero =>
    intro xs hx
    rcases xs with _ | ⟨c, xs'⟩
    · rw [List.nil_append, unquote_cons_ne (by decide)]
      rfl
    · simp at hx
  | succ n ih =>
    intro xs hx
    rcases xs with _ | ⟨c, xs'⟩
    · rw [List.nil_append, unquote_cons_ne (by decide)]
      rfl
    by_cases hc : c = '%'
    case neg =>
      have hx' : xs'.length ≤ n := by simp at hx; omega
      rw [List.cons_append, unquote_cons_ne hc, unquote_cons_ne hc, ih xs' hx']
      rfl
    subst hc
    rcases xs' with _ | ⟨a, xs2⟩
    · rcases ys with _ | ⟨y, ys'⟩
      · rfl
      · show unquote ('%' :: '/' :: y :: ys') = unquote ['%'] ++ '/' :: unquote (y :: ys')
        rw [unquote_not_hex (fun h => absurd h.1 (by decide)),
          unquote_cons_ne (by decide)]
        rfl
    rcases xs2 with _ | ⟨b, xs3⟩
    · show unquote ('%' :: a :: '/' :: ys) = unquote ['%', a] ++ '/' :: unquote ys
      rw [unquote_not_hex (fun h => absurd h.2 (by decide))]
      have h1 := ih [a] (by simp at hx ⊢; omega)
      rw [List.cons_append, List.nil_append] at h1
      rw [h1, unquote_one, unquote_two, unquote_one]
      rfl
    by_cases hh : isHexDigit a ∧ isHexDigit b
    · show unquote ('%' :: a :: b :: (xs3 ++ '/' :: ys)) =
        unquote ('%' :: a :: b :: xs3) ++ '/' :: unquote ys
      rw [unquote_hex hh, unquote_hex hh, ih xs3 (by simp at hx ⊢; omega)]
      rfl
    · show unquote ('%' :: a :: b :: (xs3 ++ '/' :: ys)) =
        unquote ('%' :: a :: b :: xs3) ++ '/' :: unquote ys
      rw [unquote_not_hex hh, unquote_not_hex hh]
      have h1 := ih (a :: b :: xs3) (by simp at hx ⊢; omega)
      rw [List.cons_append, List.cons_append] at h1
      rw [h1]
      rfl

theorem getLastD_append_ne_nil {l1 l2 : List Chars} (h : l2 ≠ []) (d : Chars) :
    (l1 ++ l2).getLastD d = l2.getLastD d := by
  rw [List.getLastD_eq_getLast?, List.getLastD_eq_getLast?,
    List.getLast?_append_of_ne_nil l1 h]

theorem pySplit_append_sep_any (sep : Char) : ∀ (xs ys : Chars),
    ∃ pre, pre ≠ [] ∧ pySplit sep (xs ++ sep :: ys) = pre ++ pySplit sep ys := by
  intro xs
  induction xs with
  | nil =>
    intro ys
    exact ⟨[[]], by simp, by rw [List.nil_append, pySplit_cons_sep]; rfl⟩
  | cons c xs' ih =>
    intro ys
    obtain ⟨pre, hpre, heq⟩ := ih ys
    by_cases hc : c = sep
    · subst hc
      refine ⟨[] :: pre, by simp, ?_⟩
      rw [List.cons_append, pySplit_cons_sep, heq]
      rfl
    · rcases pre with _ | ⟨p0, pre'⟩
      · exact absurd rfl hpre
      refine ⟨(c :: p0) :: pre', by simp, ?_⟩
      rw [List.cons_append, pySplit_cons_not_sep hc (by rw [heq]; rfl)]
      rfl

theorem basename_append_slash (xs ys : Chars) :
    basename (xs ++ '/' :: ys) = basename ys := by
  obtain ⟨pre, hpre, heq⟩ := pySplit_append_sep_any '/' xs ys
  unfold basename
  rw [heq, getLastD_append_ne_nil (pySplit_ne_nil '/' ys)]

theorem pyJoin_concat (sep : Char) : ∀ (init : List Chars) (x : Chars), init ≠ [] →
    pyJoin sep (init ++ [x]) = pyJoin sep init ++ sep :: x := by
  intro init
  induction init with
  | nil => intro x h; exact absurd rfl h
  | cons i0 init' ih =>
    intro x _
    rcases init' with _ | ⟨i1, init''⟩
    · rfl
    · show i0 ++ sep :: pyJoin sep ((i1 :: init'') ++ [x]) =
        (i0 ++ sep :: pyJoin sep (i1 :: init'')) ++ sep :: x
      rw [ih x (by simp)]
      simp

theorem basename_decomp (p : Chars) :
    ('/' ∉ p ∧ basename p = p) ∨
      ∃ pre, p = pre ++ '/' :: basename p ∧ '/' ∉ basename p := by
  rcases List.eq_nil_or_concat (pySplit '/' p) with h | ⟨init, last, h⟩
  · exact absurd h (pySplit_ne_nil '/' p)
  rw [List.concat_eq_append] at h
  have hlast : basename p = last := by
    unfold basename
    rw [h, getLastD_append_ne_nil (by simp)]
    rfl
  have hmem : last ∈ pySplit '/' p := by rw [h]; simp
  have hnoslash : '/' ∉ last := pySplit_sep_not_mem hmem
  have hjoin := pyJoin_pySplit '/' p
  rcases init with _ | ⟨i0, init'⟩
  · left
    have hp : p = last := by rw [← hjoin, h]; rfl
    exact ⟨by rw [hp]; exact hnoslash, by rw [hlast, hp]⟩
  · right
    refine ⟨pyJoin '/' (i0 :: init'), ?_, by rw [hlast]; exact hnoslash⟩
    rw [hlast]
    conv_lhs => rw [← hjoin, h]
    rw [pyJoin_concat '/' (i0 :: init') last (by simp)]

theorem basename_unquote (p : Chars) :
    basename (unquote p) = basename (unquote (basename p)) := by
  rcases basename_decomp p with ⟨h1, h2⟩ | ⟨pre, hp, hns⟩
  · rw [h2]
  · conv_lhs => rw [hp]
    rw [unquote_append_slash (basename p) pre, basename_append_slash]

theorem pdfSuffix_force (f : Chars) :
    (chars (".pdf")).isSuffixOf (lowerStr
      (if (chars (".pdf")).isSuffixOf (lowerStr f) then f else f ++ chars (".pdf")))
      = true := by
  by_cases h : (chars (".pdf")).isSuffixOf (lowerStr f) = true
  · rw [if_pos h]
    exact h
  · rw [if_neg (by simpa using h)]
    have hdist : lowerStr (f ++ chars (".pdf")) = lowerStr f ++ chars (".pdf") := by
      unfold lowerStr
      rw [List.map_append]
      rfl
    rw [hdist, List.isSuffixOf_iff_suffix]
    exact List.suffix_append (lowerStr f) (chars (".pdf"))

/-- C10: the attachment mapper places the file under a single filename that
is a function of the percent-decoded final path segment of the URL alone
(download.pdf when that segment is empty, a .pdf extension always forced),
so two attachment URLs with equal final segments map to the same path
regardless of host or directory. -/
theorem spec_C10 :
    (∀ (sch host p : Chars), wfScheme sch → wfHost host → wfPath p →
      pdf_url_to_filepath (mkUrl sch host p) = pdfNameOfSegment (unquote (basename p))) ∧
    (∀ (sch1 host1 p1 sch2 host2 p2 : Chars), wfScheme sch1 → wfHost host1 → wfPath p1 →
      wfScheme sch2 → wfHost host2 → wfPath p2 → basename p1 = basename p2 →
      pdf_url_to_filepath (mkUrl sch1 host1 p1) =
        pdf_url_to_filepath (mkUrl sch2 host2 p2)) ∧
    pdfNameOfSegment [] = chars ("download.pdf") ∧
    (∀ seg : Chars, (chars (".pdf")).isSuffixOf (lowerStr (pdfNameOfSegment seg)) = true) := by
  have key : ∀ (sch host p : Chars), wfScheme sch → wfHost host → wfPath p →
      pdf_url_to_filepath (mkUrl sch host p) = pdfNameOfSegment (unquote (basename p)) := by
    intro sch host p hs hh hp
    simp only [pdf_url_to_filepath, pdfNameOfSegment]
    rw [urlparse_mkUrl sch host p hs hh hp]
    dsimp only
    rw [← basename_unquote p]
  refine ⟨key, ?_, ?_, ?_⟩
  · intro sch1 host1 p1 sch2 host2 p2 h1 h2 h3 h4 h5 h6 heq
    rw [key sch1 host1 p1 h1 h2 h3, key sch2 host2 p2 h4 h5 h6, heq]
  · decide
  · intro seg
    simp only [pdfNameOfSegment]
    exact pdfSuffix_force _

/-- Witness for spec_C10 at concrete inputs: a percent-encoded segment, and
two URLs on different hosts and directories sharing the final segment. -/
theorem spec_C10_witness :
    (pdf_url_to_filepath (mkUrl (chars ("https")) (chars ("a.com"))
        (chars ("/x/guide%20v2.pdf")))
      = pdfNameOfSegment (unquote (basename (chars ("/x/guide%20v2.pdf"))))) ∧
    (pdf_url_to_filepath (mkUrl (chars ("https")) (chars ("a.com")) (chars ("/x/guide.pdf")))
      = pdf_url_to_filepath (mkUrl (chars ("http")) (chars ("b.org"))
          (chars ("/y/z/guide.pdf")))) := by
  constructor
  · exact spec_C10.1 (chars ("https")) (chars ("a.com")) (chars ("/x/guide%20v2.pdf"))
      (by decide) (by decide) (by decide)
  · exact spec_C10.2.1 (chars ("https")) (chars ("a.com")) (chars ("/x/guide.pdf"))
      (chars ("http")) (chars ("b.org")) (chars ("/y/z/guide.pdf"))
      (by decide) (by decide) (by decide) (by decide) (by decide) (by decide) (by decide)

theorem getLastD_irrel : ∀ (l : List Chars), l ≠ [] → ∀ (d d' : Chars),
    l.getLastD d = l.getLastD d'
  | [], h, _, _ => absurd rfl h
  | [_], _, _, _ => rfl
  | _ :: _ :: _, _, _, _ => rfl

theorem getLastD_mem : ∀ (l : List Chars), l ≠ [] → ∀ (d : Chars), l.getLastD d ∈ l
  | [], h, _ => absurd rfl h
  | [x], _, d => by simp
  | x :: y :: r, _, d => by
    show (y :: r).getLastD x ∈ x :: y :: r
    exact List.mem_cons_of_mem x (getLastD_mem (y :: r) (by simp) x)

theorem pyJoin_getLast? (sep : Char) : ∀ (segs : List Chars), segs ≠ [] →
    segs.getLastD [] ≠ [] →
    (pyJoin sep segs).getLast? = (segs.getLastD []).getLast? ∧ pyJoin sep segs ≠ [] := by
  intro segs
  induction segs with
  | nil => intro h _; exact absurd rfl h
  | cons s0 rest ih =>
    intro _ hl
    rcases rest with _ | ⟨s1, r⟩
    · refine ⟨rfl, ?_⟩
      show s0 ≠ []
      simpa using hl
    · have hl' : (s1 :: r).getLastD [] ≠ [] := by
        have heq : (s0 :: s1 :: r).getLastD [] = (s1 :: r).getLastD [] := by
          show (s1 :: r).getLastD s0 = _
          exact getLastD_irrel (s1 :: r) (by simp) s0 []
        rw [heq] at hl
        exact hl
      obtain ⟨ihq, ihne⟩ := ih (by simp) hl'
      constructor
      · show (s0 ++ sep :: pyJoin sep (s1 :: r)).getLast? = _
        rw [List.getLast?_append_of_ne_nil s0 (by simp)]
        rw [show (sep :: pyJoin sep (s1 :: r) : Chars) = [sep] ++ pyJoin sep (s1 :: r)
          from rfl]
        rw [List.getLast?_append_of_ne_nil [sep] ihne, ihq]
        rw [show ((s0 :: s1 :: r).getLastD [] : Chars) = (s1 :: r).getLastD s0 from rfl]
        rw [getLastD_irrel (s1 :: r) (by simp) s0 []]
      · show s0 ++ sep :: pyJoin sep (s1 :: r) ≠ []
        simp

theorem pyJoin_append (sep : Char) : ∀ (l1 l2 : List Chars), l1 ≠ [] → l2 ≠ [] →
    pyJoin sep (l1 ++ l2) = pyJoin sep l1 ++ sep :: pyJoin sep l2 := by
  intro l1
  induction l1 with
  | nil => intro l2 h _; exact absurd rfl h
  | cons x l1' ih =>
    intro l2 _ h2
    rcases l1' with _ | ⟨y, r⟩
    · rcases l2 with _ | ⟨z, w⟩
      · exact absurd rfl h2
      · rfl
    · show x ++ sep :: pyJoin sep ((y :: r) ++ l2) =
        (x ++ sep :: pyJoin sep (y :: r)) ++ sep :: pyJoin sep l2
      rw [ih l2 (by simp) h2]
      simp

theorem pyJoin_cons_eq (sep : Char) (s0 : Chars) (rest : List Chars) :
    ∃ r, pyJoin sep (s0 :: rest) = s0 ++ r := by
  rcases rest with _ | ⟨s1, rr⟩
  · exact ⟨[], by rw [List.append_nil]; rfl⟩
  · exact ⟨sep :: pyJoin sep (s1 :: rr), rfl⟩

theorem find?_range'_least (p : Nat → Bool) : ∀ (n a i : Nat), a ≤ i → i < a + n →
    p i = true → (∀ j, a ≤ j → j < i → p j = false) →
    (List.range' a n).find? p = some i := by
  intro n
  induction n with
  | zero =>
    intro a i h1 h2 _ _
    exact absurd h2 (by omega)
  | succ n ih =>
    intro a i h1 h2 hp hmin
    rw [List.range'_succ]
    by_cases ha : a = i
    · subst ha
      exact List.find?_cons_of_pos _ hp
    · have hlt : a < i := lt_of_le_of_ne h1 ha
      rw [List.find?_cons_of_neg _ (by simp [hmin a le_rfl hlt])]
      exact ih (a + 1) i (by omega) (by omega) hp (fun j hj1 hj2 => hmin j (by omega) hj2)

theorem range_drop_one (m : Nat) : (List.range (m + 1)).drop 1 = List.range' 1 m := by
  rw [List.range_eq_range', List.range'_succ]
  rfl

theorem urlparse_rel (hsegs : List Chars) (q : Chars) (hne : hsegs ≠ [])
    (hs : ∀ s ∈ hsegs, wfSeg s) (hq : wfQuery q) :
    urlparse (pyJoin '/' hsegs ++ '?' :: q) = ⟨[], [], pyJoin '/' hsegs, q, []⟩ := by
  have hnoseg : ∀ (c : Char), c ∈ pyJoin '/' hsegs → c = '/' ∨ plainChar c := by
    intro c hc
    rcases mem_pyJoin hc with h1 | ⟨s, hs1, hcs⟩
    · exact Or.inl h1
    · exact Or.inr ((hs s hs1).2 c hcs)
  have hcolon : ':' ∉ pyJoin '/' hsegs ++ '?' :: q := by
    intro hmem
    rcases List.mem_append.mp hmem with h | h
    · rcases hnoseg ':' h with h1 | h1
      · exact absurd h1 (by decide)
      · exact h1 (by tauto)
    · rcases List.mem_cons.mp h with h1 | h1
      · exact absurd h1 (by decide)
      · exact (hq ':' h1) (by tauto)
  have hhash : '#' ∉ pyJoin '/' hsegs ++ '?' :: q := by
    intro hmem
    rcases List.mem_append.mp hmem with h | h
    · rcases hnoseg '#' h with h1 | h1
      · exact absurd h1 (by decide)
      · exact h1 (by tauto)
    · rcases List.mem_cons.mp h with h1 | h1
      · exact absurd h1 (by decide)
      · exact (hq '#' h1) (by tauto)
  have hqm : '?' ∉ pyJoin '/' hsegs := by
    intro hmem
    rcases hnoseg '?' hmem with h1 | h1
    · exact absurd h1 (by decide)
    · exact h1 (by tauto)
  have hnopre : ¬((chars ("//")).isPrefixOf (pyJoin '/' hsegs ++ '?' :: q) = true) := by
    intro hp
    obtain ⟨t, ht⟩ := List.isPrefixOf_iff_prefix.mp hp
    rcases hsegs with _ | ⟨h0, hr⟩
    · exact hne rfl
    obtain ⟨r, hr0⟩ := pyJoin_cons_eq '/' h0 hr
    rcases hh0 : h0 with _ | ⟨c0, h0t⟩
    · exact absurd hh0 (hs h0 (by simp)).1
    have hc0 : plainChar c0 := (hs h0 (by simp)).2 c0 (by rw [hh0]; simp)
    have hhead := congrArg List.head? ht
    rw [hr0, hh0] at hhead
    simp [chars] at hhead
    exact hc0 (by tauto)
  have hquery : breakAt '?' (pyJoin '/' hsegs ++ '?' :: q) = some (pyJoin '/' hsegs, q) :=
    breakAt_append _ hqm
  simp only [urlparse, urlparseD]
  rw [breakAt_not_mem hcolon]
  dsimp only
  rw [if_pos rfl]
  rw [if_neg hnopre]
  dsimp only
  rw [breakAt_not_mem hhash]
  dsimp only
  rw [hquery]

set_option maxHeartbeats 2000000 in
/-- C1 (amended): on a non-rooted relative reference the overlap correction
splices at the SHORTEST overlap, the least i at or above 1 at which the last
i base-path segments equal the first i reference segments; the corrected
path is the base path followed by the reference segments from i on, and its
segment list is the base segments with that remainder appended once. The
spec's longest-overlap wording and its never-duplicated consequence are
refuted by spec_C1_cex. -/
theorem spec_C1 (sch host : Chars) (bsegs hsegs : List Chars) (q resolved : Chars)
    (i : Nat) (hws : wfScheme sch) (hwh : wfHost host)
    (hbs : ∀ s ∈ bsegs, wfSeg s) (hbne : bsegs ≠ [])
    (hhs : ∀ s ∈ hsegs, wfSeg s) (hhne : hsegs ≠ [])
    (hwq : wfQuery q) (hqne : q ≠ [])
    (hi1 : 1 ≤ i) (hilt : i < hsegs.length) (hile : i ≤ bsegs.length)
    (hov : overlapPred ([] :: bsegs) hsegs i = true)
    (hmin : ∀ j, j < i → 1 ≤ j → overlapPred ([] :: bsegs) hsegs j = false) :
    fix_overlap (mkUrl sch host ('/' :: pyJoin '/' bsegs))
        (pyJoin '/' hsegs ++ '?' :: q) resolved
      = urlunparse sch host
          (('/' :: pyJoin '/' bsegs) ++ '/' :: pyJoin '/' (hsegs.drop i)) q [] ∧
    pySplit '/' (('/' :: pyJoin '/' bsegs) ++ '/' :: pyJoin '/' (hsegs.drop i))
      = ([] :: bsegs) ++ hsegs.drop i := by
  obtain ⟨h0, hr, hseq⟩ : ∃ h0 hr, hsegs = h0 :: hr := by
    rcases hsegs with _ | ⟨a, b⟩
    · exact absurd rfl hhne
    · exact ⟨a, b, rfl⟩
  obtain ⟨c0, h0t, h0eq⟩ : ∃ c0 t, h0 = c0 :: t := by
    rcases hh0 : h0 with _ | ⟨a, b⟩
    · exact absurd hh0 (hhs h0 (by rw [hseq]; simp)).1
    · exact ⟨a, b, rfl⟩
  have hc0 : plainChar c0 :=
    (hhs h0 (by rw [hseq]; simp)).2 c0 (by rw [h0eq]; simp)
  obtain ⟨r, hjoin0⟩ := pyJoin_cons_eq '/' h0 hr
  have hhref : pyJoin '/' hsegs ++ '?' :: q = c0 :: (h0t ++ r ++ '?' :: q) := by
    rw [hseq, hjoin0, h0eq]
    simp
  have hcolon : ':' ∉ pyJoin '/' hsegs ++ '?' :: q := by
    intro hmem
    rcases List.mem_append.mp hmem with h | h
    · rcases mem_pyJoin h with h1 | ⟨s, hs1, hcs⟩
      · exact absurd h1 (by decide)
      · exact ((hhs s hs1).2 ':' hcs) (by tauto)
    · rcases List.mem_cons.mp h with h1 | h1
      · exact absurd h1 (by decide)
      · exact (hwq ':' h1) (by tauto)
  have hguard : ¬(((chars ("/")).isPrefixOf (pyJoin '/' hsegs ++ '?' :: q)
      || (chars ("http://")).isPrefixOf (pyJoin '/' hsegs ++ '?' :: q)
      || (chars ("https://")).isPrefixOf (pyJoin '/' hsegs ++ '?' :: q)
      || (chars ("//")).isPrefixOf (pyJoin '/' hsegs ++ '?' :: q)) = true) := by
    intro hor
    simp only [Bool.or_eq_true] at hor
    rcases hor with ((h | h) | h) | h
    · obtain ⟨t, ht⟩ := List.isPrefixOf_iff_prefix.mp h
      rw [hhref] at ht
      have := congrArg List.head? ht
      simp [chars] at this
      exact hc0 (by tauto)
    · exact hcolon ((List.isPrefixOf_iff_prefix.mp h).subset (by decide))
    · exact hcolon ((List.isPrefixOf_iff_prefix.mp h).subset (by decide))
    · obtain ⟨t, ht⟩ := List.isPrefixOf_iff_prefix.mp h
      rw [hhref] at ht
      have := congrArg List.head? ht
      simp [chars] at this
      exact hc0 (by tauto)
  have hbpathwf : wfPath ('/' :: pyJoin '/' bsegs) := by
    constructor
    · right
      rw [List.isPrefixOf_iff_prefix]
      exact ⟨pyJoin '/' bsegs, rfl⟩
    · intro c hc
      rcases List.mem_cons.mp hc with h | h
      · subst h; decide
      · rcases mem_pyJoin h with h1 | ⟨s, hs1, hcs⟩
        · subst h1; decide
        · intro hor
          exact ((hbs s hs1).2 c hcs) (by tauto)
  have hbu : urlparse (mkUrl sch host ('/' :: pyJoin '/' bsegs))
      = ⟨sch, host, '/' :: pyJoin '/' bsegs, [], []⟩ :=
    urlparse_mkUrl sch host _ hws hwh hbpathwf
  have hhu : urlparse (pyJoin '/' hsegs ++ '?' :: q)
      = ⟨[], [], pyJoin '/' hsegs, q, []⟩ :=
    urlparse_rel hsegs q hhne hhs hwq
  have hbl : bsegs.getLastD [] ≠ [] := (hbs _ (getLastD_mem bsegs hbne [])).1
  obtain ⟨hbq, hbne'⟩ := pyJoin_getLast? '/' bsegs hbne hbl
  have hbrstrip : rstripSlash ('/' :: pyJoin '/' bsegs) = '/' :: pyJoin '/' bsegs := by
    apply pyRstrip_eq_self_getLast
    intro c hcl
    rw [show ('/' :: pyJoin '/' bsegs : Chars) = ['/'] ++ pyJoin '/' bsegs from rfl,
      List.getLast?_append_of_ne_nil ['/'] hbne', hbq] at hcl
    have hcmem := List.mem_of_mem_getLast? hcl
    have hplain := (hbs _ (getLastD_mem bsegs hbne [])).2 c hcmem
    have hcne : c ≠ '/' := fun h => hplain (Or.inl h)
    simp [hcne]
  have hnoslash_b : ∀ s ∈ bsegs, '/' ∉ s :=
    fun s hs1 hc => ((hbs s hs1).2 '/' hc) (Or.inl rfl)
  have hnoslash_h : ∀ s ∈ hsegs, '/' ∉ s :=
    fun s hs1 hc => ((hhs s hs1).2 '/' hc) (Or.inl rfl)
  have hbsplit : pySplit '/' ('/' :: pyJoin '/' bsegs) = [] :: bsegs := by
    rw [pySplit_cons_sep, pySplit_pyJoin '/' bsegs hbne hnoslash_b]
  have hhsplit : pySplit '/' (pyJoin '/' hsegs) = hsegs :=
    pySplit_pyJoin '/' hsegs hhne hnoslash_h
  have hY : hsegs.drop i ≠ [] := by
    intro h
    have := List.drop_eq_nil_iff.mp h
    omega
  have hYwf : ∀ s ∈ hsegs.drop i, wfSeg s := fun s hs1 => hhs s (List.mem_of_mem_drop hs1)
  have hYl : (hsegs.drop i).getLastD [] ≠ [] := (hYwf _ (getLastD_mem _ hY [])).1
  obtain ⟨hYq, hYne⟩ := pyJoin_getLast? '/' (hsegs.drop i) hY hYl
  have hcrstrip : rstripSlash (('/' :: pyJoin '/' bsegs) ++ '/' :: pyJoin '/' (hsegs.drop i))
      = ('/' :: pyJoin '/' bsegs) ++ '/' :: pyJoin '/' (hsegs.drop i) := by
    apply pyRstrip_eq_self_getLast
    intro c hcl
    rw [List.getLast?_append_of_ne_nil _ (by simp),
      show ('/' :: pyJoin '/' (hsegs.drop i) : Chars) = ['/'] ++ pyJoin '/' (hsegs.drop i)
        from rfl,
      List.getLast?_append_of_ne_nil ['/'] hYne, hYq] at hcl
    have hcmem := List.mem_of_mem_getLast? hcl
    have hplain := (hYwf _ (getLastD_mem _ hY [])).2 c hcmem
    have hcne : c ≠ '/' := fun h => hplain (Or.inl h)
    simp [hcne]
  have hfind : ((List.range ([] :: bsegs : List Chars).length).drop 1).find?
      (overlapPred ([] :: bsegs) hsegs) = some i := by
    rw [List.length_cons, range_drop_one]
    exact find?_range'_least _ bsegs.length 1 i hi1 (by omega) hov
      (fun j hj1 hj2 => hmin j hj2 hj1)
  have hc2 : pySplit '/' (('/' :: pyJoin '/' bsegs) ++ '/' :: pyJoin '/' (hsegs.drop i))
      = ([] :: bsegs) ++ hsegs.drop i := by
    rw [show (('/' :: pyJoin '/' bsegs : Chars) ++ '/' :: pyJoin '/' (hsegs.drop i))
        = '/' :: (pyJoin '/' bsegs ++ '/' :: pyJoin '/' (hsegs.drop i)) from rfl]
    rw [← pyJoin_append '/' bsegs (hsegs.drop i) hbne hY]
    rw [pySplit_cons_sep, pySplit_pyJoin '/' _ (by simp [hbne]) ?_]
    · rfl
    · intro s hs1
      rcases List.mem_append.mp hs1 with h | h
      · exact hnoslash_b s h
      · exact fun hc => ((hYwf s h).2 '/' hc) (Or.inl rfl)
  refine ⟨?_, hc2⟩
  simp only [fix_overlap]
  rw [if_neg hguard]
  rw [hbu, hhu]
  dsimp only
  rw [hbrstrip, hbsplit, hhsplit, hfind]
  dsimp only
  rw [hcrstrip]
  rw [if_neg (show ¬((('/' :: pyJoin '/' bsegs : Chars) ++ '/' ::
    pyJoin '/' (hsegs.drop i)) = []) by simp)]
  rw [if_pos (show q ≠ [] from hqne)]

set_option maxHeartbeats 2000000 in
/-- C1 counterexample: against base https://h/a/b/a/b the reference
a/b/a/b/c is spliced at the SHORTEST overlap (i = 2), producing
https://h/a/b/a/b/a/b/c, while the spec's longest-overlap rule (i = 4)
would give https://h/a/b/a/b/c; the code's result contains the overlapping
run a/b/a/b twice (at segment offsets 0 and 2), refuting the
never-duplicated consequence. -/
theorem spec_C1_cex :
    resolve_url (chars ("https://h/a/b/a/b")) (chars ("a/b/a/b/c"))
      = chars ("https://h/a/b/a/b/a/b/c") ∧
    resolve_url_longest (chars ("https://h/a/b/a/b")) (chars ("a/b/a/b/c"))
      = chars ("https://h/a/b/a/b/c") ∧
    resolve_url (chars ("https://h/a/b/a/b")) (chars ("a/b/a/b/c")) ≠
      resolve_url_longest (chars ("https://h/a/b/a/b")) (chars ("a/b/a/b/c")) ∧
    ([chars ("a"), chars ("b"), chars ("a"), chars ("b")] <+:
      (pySplit '/' (urlparse (resolve_url (chars ("https://h/a/b/a/b"))
        (chars ("a/b/a/b/c")))).path).drop 1) ∧
    ([chars ("a"), chars ("b"), chars ("a"), chars ("b")] <+:
      ((pySplit '/' (urlparse (resolve_url (chars ("https://h/a/b/a/b"))
        (chars ("a/b/a/b/c")))).path).drop 1).drop 2) := by
  refine ⟨?_, ?_, ?_, ?_, ?_⟩ <;> decide

set_option maxHeartbeats 2000000 in
/-- Witness for spec_C1 at concrete inputs: base segments a/b/a/b,
reference segments a/b/a/b/c, minimal overlap index 2. -/
theorem spec_C1_witness :
    fix_overlap (mkUrl (chars ("https")) (chars ("h"))
        ('/' :: pyJoin '/' [chars ("a"), chars ("b"), chars ("a"), chars ("b")]))
        (pyJoin '/' [chars ("a"), chars ("b"), chars ("a"), chars ("b"), chars ("c")]
          ++ '?' :: chars ("z")) (chars ("r"))
      = urlunparse (chars ("https")) (chars ("h"))
          (('/' :: pyJoin '/' [chars ("a"), chars ("b"), chars ("a"), chars ("b")])
            ++ '/' :: pyJoin '/'
              ([chars ("a"), chars ("b"), chars ("a"), chars ("b"), chars ("c")].drop 2))
          (chars ("z")) [] ∧
    pySplit '/' (('/' :: pyJoin '/' [chars ("a"), chars ("b"), chars ("a"), chars ("b")])
        ++ '/' :: pyJoin '/'
          ([chars ("a"), chars ("b"), chars ("a"), chars ("b"), chars ("c")].drop 2))
      = ([] :: [chars ("a"), chars ("b"), chars ("a"), chars ("b")]) ++
          [chars ("a"), chars ("b"), chars ("a"), chars ("b"), chars ("c")].drop 2 :=
  spec_C1 (chars ("https")) (chars ("h"))
    [chars ("a"), chars ("b"), chars ("a"), chars ("b")]
    [chars ("a"), chars ("b"), chars ("a"), chars ("b"), chars ("c")]
    (chars ("z")) (chars ("r")) 2 (by decide) (by decide) (by decide) (by decide)
    (by decide) (by decide) (by decide) (by decide) (by decide) (by decide)
    (by decide) (by decide) (by decide)
